import Mathlib

/-!
# virus-scanner: a verification development

Shallow embedding of `PatternScanner.cpp` (the ELF classifier, the streaming
matcher, the report routine and the task entry point) and of `threadpool.c`
(the linked work queue, `dispatch`, the worker loop `do_work` and
`destroy_threadpool`), followed by the theorems about them.

Conventions.
* A byte (`char`) is a natural number; only equality of bytes is ever used.
* `size_t` arithmetic is done modulo `2 ^ 64`.
* A pointer into the match buffer is `Option Nat`: `none` is the null pointer,
  `some k` is `buffer.data() + k`.
* The library calls (`std::ifstream`, `std::search`, `std::copy`, `std::quoted`)
  are modelled by their specified results.
* A work item lives on a heap of addresses; `qhead`, `qtail` and `next` are
  pointers into it (`none` is `NULL`), and `malloc` returns an address that is
  not live.
* The threads of the pool are interleaved by a schedule. One step of a thread is
  one critical section under `qlock`: from `pthread_mutex_lock`, or from the
  return of a `pthread_cond_wait`, to the next unlock or wait. A thread in
  `pthread_cond_wait` may wake at any time (a signal, a broadcast or a spurious
  wake-up) and tests its condition again. A task routine returns.
-/

namespace VirusScanner

set_option maxRecDepth 100000

/-! ## Files and input streams -/

/-- A byte of a file or of the pattern. -/
abbrev Byte := Nat

/-- The file found at a path: whether it can be opened, its bytes, and how many
calls of `read` the device serves before it fails (`none`: it never fails). -/
structure File where
  openable : Bool
  content : List Byte
  goodReads : Option Nat
deriving DecidableEq, Repr

/-- The state of a `std::ifstream`: the bytes not yet extracted, the remaining
budget of successful device reads, the three state bits and `gcount()`. -/
structure ifstream where
  pending : List Byte
  goodReads : Option Nat
  eofbit : Bool
  failbit : Bool
  badbit : Bool
  gcount : Nat
deriving DecidableEq, Repr

/-- Constructor `std::ifstream file(path, mode)`: a file that cannot be opened
leaves the stream with `failbit` set. -/
def ifstream.open (f : File) : ifstream :=
  if f.openable then ⟨f.content, f.goodReads, false, false, false, 0⟩
  else ⟨[], f.goodReads, false, true, false, 0⟩

/-- Member `fail()`; `operator!` returns it and `operator bool` its negation. -/
def ifstream.fail (s : ifstream) : Bool := s.failbit || s.badbit

/-- Member `eof()`. -/
def ifstream.eof (s : ifstream) : Bool := s.eofbit

/-- Member `good()`. -/
def ifstream.good (s : ifstream) : Bool := !s.eofbit && !s.failbit && !s.badbit

/-- Member `read(dest, n)`, returning the extracted characters (which the caller
stores at `dest`) and the new stream state. A stream that is not good sets
`failbit` and extracts nothing; a device failure sets `badbit` only and extracts
nothing; otherwise up to `n` characters are extracted and a short count sets
`eofbit` and `failbit`. -/
def ifstream.read (s : ifstream) (n : Nat) : List Byte × ifstream :=
  if !s.good then ([], { s with failbit := true, gcount := 0 })
  else match s.goodReads with
    | some 0 => ([], { s with badbit := true, gcount := 0 })
    | budget =>
      let got := s.pending.take n
      let short := got.length != n
      (got, { pending := s.pending.drop n
              goodReads := budget.map Nat.pred
              eofbit := short
              failbit := short
              badbit := false
              gcount := got.length })

/-! ## Outcomes of the C++ routines -/

/-- The routine that raised a `std::ios_base::failure`. -/
inductive Routine
  | IsELFFile
  | ReportInfectedFile
deriving DecidableEq, Repr

/-- The `std::ios_base::failure` exceptions of `PatternScanner.cpp`. -/
inductive ios_failure
  | failedToOpen (who : Routine)
  | failedToRead (who : Routine)
deriving DecidableEq, Repr

/-- Undefined behaviour a routine can run into. -/
inductive Fault
  | nullStore
  | outOfBounds
  | outOfFuel
deriving DecidableEq, Repr

/-- How a routine ends: it returns a value, it throws, or it runs into
undefined behaviour. -/
inductive Completion (α : Type)
  | returned (a : α)
  | threw (e : ios_failure)
  | undefined (f : Fault)
deriving DecidableEq, Repr

/-! ## PatternScanner::IsELFFile -/

/-- The local `magic_header` of `IsELFFile`. -/
def magic_header : List Byte :=
  [0x7f, 0x45, 0x4c, 0x46, 0x02, 0x01, 0x01, 0x00,
   0x00, 0x00, 0x00, 0x00, 0x00, 0x00, 0x00, 0x00]

/-- Storing `bytes` at offset `off` of `buffer`. -/
def storeAt (buffer : List Byte) (off : Nat) (bytes : List Byte) : List Byte :=
  buffer.take off ++ bytes ++ buffer.drop (off + bytes.length)

/-- `PatternScanner::IsELFFile` (PatternScanner.cpp, lines 79-101). -/
def IsELFFile (f : File) : Completion Bool :=
  let num_bytes := 16
  let buffer := List.replicate num_bytes 0
  let file := ifstream.open f
  if file.fail then .threw (.failedToOpen .IsELFFile)
  else
    let (got, file) := file.read num_bytes
    let buffer := storeAt buffer 0 got
    if file.fail && !file.eof then .threw (.failedToRead .IsELFFile)
    else if file.gcount < num_bytes then .returned false
    else .returned (decide (magic_header = buffer))

/-! ## PatternScanner::Contains -/

/-- BUFFER_SIZE of PatternScanner.h. -/
def BUFFER_SIZE : Nat := 4096

/-- The modulus of `size_t` arithmetic. -/
def SIZE_MOD : Nat := 2 ^ 64

/-- The `size_t` value `pattern_.size() - 1`. -/
def overlap (pattern_ : List Byte) : Nat :=
  (pattern_.length + SIZE_MOD - 1) % SIZE_MOD

/-- The result of `std::search(first, last, searcher_)` as an offset from `first`:
the offset of the first occurrence of the pattern in the range, and the offset of
`last` when there is none (an empty pattern is found at `first`). -/
def search : List Byte → List Byte → Nat
  | [], _ => 0
  | h :: t, pat => if pat <+: h :: t then 0 else search t pat + 1

/-- The call `std::copy(buffer.end() - k, buffer.end(), buffer.begin())`. -/
def copyTail (buffer : List Byte) (k : Nat) : List Byte :=
  buffer.drop (buffer.length - k) ++ buffer.drop k

/-- What a run of `Contains` did: the ranges handed to `std::search`, in order,
the way the call ended, and the stream it leaves behind. -/
structure ContainsRun where
  searched : List (List Byte)
  result : Completion Bool
  file : ifstream
deriving DecidableEq, Repr

/-- The `while (file)` loop of `PatternScanner::Contains` (lines 130-148), from the
state in which `read_pointer` and `buffer` are as given; `fuel` bounds the number
of iterations. -/
def ContainsLoop (pattern_ : List Byte) :
    Nat → Option Nat → List Byte → ifstream → List (List Byte) → ContainsRun
  | 0, _, _, file, acc => ⟨acc, .undefined .outOfFuel, file⟩
  | fuel + 1, read_pointer, buffer, file, acc =>
    if file.fail then ⟨acc, .returned false, file⟩
    else
      let (got, file) := file.read BUFFER_SIZE
      let bytes_read := file.gcount
      let num_bytes := (overlap pattern_ + bytes_read) % SIZE_MOD
      match got, read_pointer with
      | _ :: _, none => ⟨acc, .undefined .nullStore, file⟩
      | _, rp =>
        let off := rp.getD 0
        if off + got.length > buffer.length then ⟨acc, .undefined .outOfBounds, file⟩
        else
          let buffer := storeAt buffer off got
          if bytes_read = 0 then ⟨acc, .returned false, file⟩
          else if num_bytes > buffer.length then ⟨acc, .undefined .outOfBounds, file⟩
          else
            let window := buffer.take num_bytes
            if search window pattern_ ≠ window.length then
              ⟨acc ++ [window], .returned true, file⟩
            else if overlap pattern_ > buffer.length then
              ⟨acc ++ [window], .undefined .outOfBounds, file⟩
            else
              ContainsLoop pattern_ fuel (some (overlap pattern_))
                (copyTail buffer (overlap pattern_)) file (acc ++ [window])

/-- The body of `PatternScanner::Contains` with the initial value of
`read_pointer` left open. -/
def ContainsFrom (read_pointer : Option Nat) (pattern_ : List Byte) (file : ifstream) :
    ContainsRun :=
  let buffer := List.replicate ((BUFFER_SIZE + pattern_.length + SIZE_MOD - 1) % SIZE_MOD) 0
  ContainsLoop pattern_ (file.pending.length + 1) read_pointer buffer file []

/-- `PatternScanner::Contains` (lines 120-150): `char* read_pointer = 0;`. -/
def ContainsRun.of (pattern_ : List Byte) (file : ifstream) : ContainsRun :=
  ContainsFrom none pattern_ file

/-- The value `PatternScanner::Contains` returns. -/
def Contains (pattern_ : List Byte) (file : ifstream) : Completion Bool :=
  (ContainsRun.of pattern_ file).result

/-! ## PatternScanner::ReportInfectedFile and PatternScanner::ThreadEntry -/

/-- The members of a `PatternScanner` object that the scan uses (`searcher_` is
derived from `pattern_`). -/
structure PatternScanner where
  dir_path_ : String
  pattern_ : List Byte
deriving DecidableEq, Repr

/-- The `ThreadContext` of PatternScanner.h. -/
structure ThreadContext where
  instance_ : PatternScanner
  path : String
deriving DecidableEq, Repr

/-- What a routine wrote to `std::cout`, and how it ended. -/
structure Effect (α : Type) where
  stdout : String
  completion : Completion α
deriving DecidableEq, Repr

/-- The delimiter of `std::quoted`. -/
def quoteDelim : Char := Char.ofNat 34

/-- The escape character of `std::quoted`. -/
def quoteEscape : Char := Char.ofNat 92

/-- What `operator<<` writes for a `std::filesystem::path`, namely
`std::quoted(p.string())`: the delimiter, the characters of the path with every
delimiter and escape character preceded by the escape character, the delimiter. -/
def quoted (p : String) : String :=
  String.mk ([quoteDelim]
    ++ p.toList.flatMap (fun c => if c = quoteDelim ∨ c = quoteEscape then [quoteEscape, c] else [c])
    ++ [quoteDelim])

/-- What `std::endl` writes. -/
def endl : String := String.singleton (Char.ofNat 10)

/-- `PatternScanner::ReportInfectedFile` (lines 103-118), with the member
`Contains` it calls as a parameter; `fs` maps a path to the file found there. -/
def ReportInfectedFileWith (contains : List Byte → ifstream → ContainsRun)
    (this : PatternScanner) (fs : String → File) (file_path : String) : Effect Unit :=
  let file := ifstream.open (fs file_path)
  if file.fail then ⟨"", .threw (.failedToOpen .ReportInfectedFile)⟩
  else
    let run := contains this.pattern_ file
    match run.result with
    | .returned true => ⟨"File " ++ quoted file_path ++ " is infected!" ++ endl, .returned ()⟩
    | .returned false =>
      if !run.file.eof then ⟨"", .threw (.failedToRead .ReportInfectedFile)⟩
      else ⟨"", .returned ()⟩
    | .threw e => ⟨"", .threw e⟩
    | .undefined f => ⟨"", .undefined f⟩

/-- `PatternScanner::ReportInfectedFile`. -/
def ReportInfectedFile (this : PatternScanner) (fs : String → File) (file_path : String) :
    Effect Unit :=
  ReportInfectedFileWith ContainsRun.of this fs file_path

/-- `PatternScanner::ThreadEntry` (lines 50-60), with the `Contains` reached
through `ReportInfectedFile` as a parameter: the call of `ReportInfectedFile` is
not inside a `try` block, so whatever ends that call abnormally ends
`ThreadEntry` the same way, before the clean-up and the `return 0`. -/
def ThreadEntryWith (contains : List Byte → ifstream → ContainsRun)
    (fs : String → File) (ctx : ThreadContext) : Effect Int :=
  let path := ctx.path
  let r := ReportInfectedFileWith contains ctx.instance_ fs path
  match r.completion with
  | .returned _ => ⟨r.stdout, .returned 0⟩
  | .threw e => ⟨r.stdout, .threw e⟩
  | .undefined f => ⟨r.stdout, .undefined f⟩

/-- `PatternScanner::ThreadEntry`. -/
def ThreadEntry (fs : String → File) (ctx : ThreadContext) : Effect Int :=
  ThreadEntryWith ContainsRun.of fs ctx

/-! ## The search windows as the specification describes them -/

/-- Search windows in the words of the specification: the file is read in chunks
of `BUFFER_SIZE` bytes; the window of chunk number `i` is the chunk preceded by
`carry` bytes of the file, where `carry` is `0` for the first chunk and
`min (L - 1) (bytes read so far)` for a later one. -/
def specWindows (L : Nat) (content : List Byte) : List (List Byte) :=
  (List.range ((content.length + BUFFER_SIZE - 1) / BUFFER_SIZE)).map fun i =>
    let start := BUFFER_SIZE * i
    let bytesRead := min BUFFER_SIZE (content.length - start)
    let carry := if i = 0 then 0 else min (L - 1) start
    (content.drop (start - carry)).take (carry + bytesRead)

/-! ## threadpool.c: the heap of work items and the linked queue -/

/-- Modelled from the spec: the declaration of `work_t` in threadpool.h, which is
not among the sources. The fields are the ones threadpool.c uses: the task
routine and its argument (both identified by a number) and the `next` pointer
(`none` is `NULL`). -/
structure work_t where
  routine : Nat
  arg : Nat
  next : Option Nat
deriving DecidableEq, Repr

/-- Modelled from the spec: the declaration of `threadpool` in threadpool.h, which
is not among the sources. The fields are the ones threadpool.c uses; the thread
handles, the mutex and the two condition variables are represented by the
scheduling model below. -/
structure threadpool where
  num_threads : Nat
  qsize : Int
  qhead : Option Nat
  qtail : Option Nat
  dont_accept : Int
  shutdown : Int
deriving DecidableEq, Repr

/-- The heap of work items: the live allocations, by address. -/
abbrev Heap := List (Nat × work_t)

/-- The work item stored at an address, if the address is live. -/
def Heap.get (h : Heap) (a : Nat) : Option work_t := h.lookup a

/-- Writing a work item at an address. -/
def Heap.set (h : Heap) (a : Nat) (w : work_t) : Heap :=
  (a, w) :: h.filter (fun p => p.1 != a)

/-- The call `free(a)`. -/
def Heap.free (h : Heap) (a : Nat) : Heap := h.filter (fun p => p.1 != a)

/-- A task: the routine and the argument of a work item. -/
abbrev Task := Nat × Nat

/-- What the pool was seen to do, in order. -/
inductive Event
  | enqueued (t : Task)
  | dequeued (t : Task)
  | called (t : Task)
deriving DecidableEq, Repr

/-- What the threads share: the pool structure, the heap, and the history of
events (which no routine reads). -/
structure Shared where
  tp : threadpool
  heap : Heap
  log : List Event
deriving DecidableEq, Repr

/-- `enqueue` (threadpool.c, lines 140-149) on the queue pointers `qhead` and
`qtail`; `none` when `*qtail` dangles. -/
def enqueue (heap : Heap) (qhead qtail : Option Nat) (new_work : Nat) :
    Option (Heap × Option Nat × Option Nat) :=
  match qtail with
  | none => some (heap, some new_work, some new_work)
  | some t =>
    match heap.get t with
    | none => none
    | some w => some (heap.set t { w with next := some new_work }, qhead, some new_work)

/-- `dequeue` (lines 127-138): the returned pointer and the new `qhead` and
`qtail`; `none` when `*qhead` dangles. -/
def dequeue (heap : Heap) (qhead qtail : Option Nat) :
    Option (Option Nat × Option Nat × Option Nat) :=
  match qhead with
  | none => some (none, qhead, qtail)
  | some d =>
    match heap.get d with
    | none => none
    | some w => some (some d, w.next, if w.next = none then none else qtail)

/-- `dispatch` (lines 103-125) when its `malloc` succeeds, `new_work` being the
address returned; `none` when the call runs into undefined behaviour. The
enqueued task is recorded in the history where `enqueue` is called. -/
def dispatch (m : Shared) (new_work : Nat) (dispatch_to_here arg : Nat) : Option Shared :=
  let heap := m.heap.set new_work ⟨dispatch_to_here, arg, none⟩
  if m.tp.dont_accept ≠ 0 then
    some { m with heap := heap.free new_work }
  else
    match enqueue heap m.tp.qhead m.tp.qtail new_work with
    | none => none
    | some (heap, qhead, qtail) =>
      some { tp := { m.tp with qhead := qhead, qtail := qtail, qsize := m.tp.qsize + 1 }
             heap := heap
             log := m.log ++ [.enqueued (dispatch_to_here, arg)] }

/-! ## threadpool.c: the worker loop and the shutdown

`pthread_cond_signal` and `pthread_cond_broadcast` have no effect on the state:
the threads they would wake may wake at any time. -/

/-- Where a worker thread stands in `do_work`. -/
inductive WorkerPc
  | top
  | waiting
  | running (to_do : Option Nat)
  | exited
deriving DecidableEq, Repr

/-- Where the caller of `destroy_threadpool` stands. -/
inductive DestroyPc
  | notCalled
  | draining
  | joining (i : Nat)
  | destroyed
deriving DecidableEq, Repr

/-- The part of `do_work` from the test of the inner `while` (line 78) to the
unlock of line 93 or the wait of line 79. -/
def do_work_wait (m : Shared) : Option (Shared × WorkerPc) :=
  if m.tp.qsize = 0 ∧ m.tp.shutdown = 0 then some (m, .waiting)
  else if m.tp.shutdown ≠ 0 then some (m, .exited)
  else
    match dequeue m.heap m.tp.qhead m.tp.qtail with
    | none => none
    | some (to_do, qhead, qtail) =>
      let seen := match to_do.bind m.heap.get with
        | some w => [Event.dequeued (w.routine, w.arg)]
        | none => []
      some ({ m with tp := { m.tp with qhead := qhead, qtail := qtail, qsize := m.tp.qsize - 1 }
                     log := m.log ++ seen },
            .running to_do)

/-- The part of `do_work` from the lock of line 70 on. -/
def do_work_lock (m : Shared) : Option (Shared × WorkerPc) :=
  if m.tp.shutdown ≠ 0 then some (m, .exited) else do_work_wait m

/-- Lines 97-99 of `do_work`: the call of the routine and `free(to_do)`. -/
def do_work_run (m : Shared) (to_do : Option Nat) : Option (Shared × WorkerPc) :=
  match to_do.bind m.heap.get, to_do with
  | some w, some a =>
    some ({ m with heap := m.heap.free a, log := m.log ++ [.called (w.routine, w.arg)] }, .top)
  | _, _ => none

/-- The part of `destroy_threadpool` from the test of the `while` (line 155) to
the unlock of line 160 or the wait of line 156. -/
def destroy_wait (m : Shared) : Shared × DestroyPc :=
  if m.tp.qsize > 0 then (m, .draining)
  else ({ m with tp := { m.tp with shutdown := 1 } }, .joining 0)

/-- The part of `destroy_threadpool` from the lock of line 152 on. -/
def destroy_lock (m : Shared) : Shared × DestroyPc :=
  destroy_wait { m with tp := { m.tp with dont_accept := 1 } }

/-- The pool and its threads. -/
structure System where
  mem : Shared
  workers : List WorkerPc
  destroyer : DestroyPc
deriving DecidableEq, Repr

/-- `create_threadpool` (lines 18-65), when every allocation and thread creation
succeeds. -/
def create_threadpool (num_threads_in_pool : Nat) : System :=
  { mem := { tp := { num_threads := num_threads_in_pool, qsize := 0, qhead := none,
                     qtail := none, dont_accept := 0, shutdown := 0 }
             heap := []
             log := [] }
    workers := List.replicate num_threads_in_pool .top
    destroyer := .notCalled }

/-- What the scheduler picks next: a call of `dispatch` (with the address its
`malloc` returns), the next critical section of worker `i`, or the next critical
section of `destroy_threadpool`. -/
inductive Action
  | dispatch (new_work : Nat) (dispatch_to_here arg : Nat)
  | work (i : Nat)
  | destroy
deriving DecidableEq, Repr

/-- The result of a scheduling step. -/
inductive Step
  | next (s : System)
  | disabled
  | fault
deriving DecidableEq, Repr

/-- One step of worker `i`. A waiting worker may wake at any time and tests its
condition again. -/
def stepWorker (s : System) (i : Nat) : Step :=
  match s.workers.get? i with
  | none => .disabled
  | some .exited => .disabled
  | some pc =>
    let r := match pc with
      | .top => do_work_lock s.mem
      | .waiting => do_work_wait s.mem
      | .running to_do => do_work_run s.mem to_do
      | .exited => none
    match r with
    | none => .fault
    | some (m, pc) => .next { s with mem := m, workers := s.workers.set i pc }

/-- One step of `destroy_threadpool`. A join waits for its thread to exit. -/
def stepDestroy (s : System) : Step :=
  match s.destroyer with
  | .notCalled =>
    let (m, pc) := destroy_lock s.mem
    .next { s with mem := m, destroyer := pc }
  | .draining =>
    let (m, pc) := destroy_wait s.mem
    .next { s with mem := m, destroyer := pc }
  | .joining i =>
    if i < s.mem.tp.num_threads then
      if s.workers.get? i = some .exited then .next { s with destroyer := .joining (i + 1) }
      else .disabled
    else .next { s with destroyer := .destroyed }
  | .destroyed => .disabled

/-- One scheduling step. A `malloc` never returns a live address, and nobody
uses the pool once it is destroyed. -/
def step (s : System) : Action → Step
  | .dispatch new_work f x =>
    if s.destroyer = .destroyed ∨ s.mem.heap.get new_work ≠ none then .disabled
    else match dispatch s.mem new_work f x with
      | none => .fault
      | some m => .next { s with mem := m }
  | .work i => stepWorker s i
  | .destroy => stepDestroy s

/-- Running a schedule. -/
def run (s : System) : List Action → Step
  | [] => .next s
  | a :: rest =>
    match step s a with
    | .next s => run s rest
    | r => r

/-- The tasks enqueued, in order. -/
def enqueuedTasks (log : List Event) : List Task :=
  log.filterMap fun e => match e with
    | .enqueued t => some t
    | _ => none

/-- The tasks dequeued, in order. -/
def dequeuedTasks (log : List Event) : List Task :=
  log.filterMap fun e => match e with
    | .dequeued t => some t
    | _ => none

/-- The tasks whose routine was called, in order. -/
def calledTasks (log : List Event) : List Task :=
  log.filterMap fun e => match e with
    | .called t => some t
    | _ => none

/-- The tasks of the first `n` work items on the `next` chain from `p`. -/
def queuedTasks (heap : Heap) : Nat → Option Nat → List Task
  | 0, _ => []
  | _ + 1, none => []
  | n + 1, some a =>
    match heap.get a with
    | none => []
    | some w => (w.routine, w.arg) :: queuedTasks heap n w.next

/-- The tasks a schedule hands to `dispatch`, in order. -/
def dispatchedTasks (sched : List Action) : List Task :=
  sched.filterMap fun a => match a with
    | .dispatch _ f x => some (f, x)
    | _ => none

/-- Whether a scheduling step is a call of `dispatch`. -/
def Action.isDispatch : Action → Bool
  | .dispatch _ _ _ => true
  | _ => false

/-- The state a schedule leads to from a fresh pool of `n` threads (the fresh pool
itself when the schedule cannot be run). -/
def stateAfter (n : Nat) (sched : List Action) : System :=
  match run (create_threadpool n) sched with
  | .next s => s
  | _ => create_threadpool n

/-- The phase of the pool in the words of the specification: `0` is Running
(accepting), `1` is Draining (not accepting, not shut down), `2` is Terminated
(shut down). -/
def phase (tp : threadpool) : Nat :=
  if tp.shutdown ≠ 0 then 2 else if tp.dont_accept ≠ 0 then 1 else 0

/-! ## Inputs of the scenarios -/

/-- The file of the boundary scenario: `BUFFER_SIZE - 1` filler bytes, then the
two bytes of the pattern `ab`, the first of which ends the first chunk. -/
def boundaryFile : File :=
  ⟨true, List.replicate (BUFFER_SIZE - 1) 120 ++ [97, 98], none⟩

/-! ## The invariant of the pool -/

/-- `Chain heap p nodes`: following `next` from `p` visits the live work items at
the addresses `nodes`, in order, and then reaches `NULL`. -/
def Chain (heap : Heap) : Option Nat → List Nat → Prop
  | p, [] => p = none
  | p, a :: rest => p = some a ∧ ∃ w, heap.get a = some w ∧ Chain heap w.next rest

/-- The task of the work item at an address. -/
def taskAt (heap : Heap) (a : Nat) : Option Task :=
  (heap.get a).map fun w => (w.routine, w.arg)

/-- The work item a worker has taken off the queue and not yet freed. -/
def WorkerPc.holds : WorkerPc → List Nat
  | .running (some a) => [a]
  | _ => []

/-- The work items the workers hold. -/
def held (ws : List WorkerPc) : List Nat := ws.flatMap WorkerPc.holds

/-- The invariant of the queue: `nodes` are the addresses of the queued work
items, the work items the workers hold are live and apart from them, and the
history accounts for every task. -/
structure QueueOk (m : Shared) (ws : List WorkerPc) (nodes : List Nat) : Prop where
  chain : Chain m.heap m.tp.qhead nodes
  tail : m.tp.qtail = nodes.getLast?
  size : m.tp.qsize = nodes.length
  nodup : (nodes ++ held ws).Nodup
  live : ∀ a ∈ held ws, ∃ w, m.heap.get a = some w
  noNull : WorkerPc.running none ∉ ws
  enq : enqueuedTasks m.log = dequeuedTasks m.log ++ nodes.filterMap (taskAt m.heap)
  deq : (dequeuedTasks m.log).Perm (calledTasks m.log ++ (held ws).filterMap (taskAt m.heap))

/-- The invariant of the flags and of the shutdown. -/
structure FlagsOk (s : System) : Prop where
  accept01 : s.mem.tp.dont_accept = 0 ∨ s.mem.tp.dont_accept = 1
  shutdown01 : s.mem.tp.shutdown = 0 ∨ s.mem.tp.shutdown = 1
  shut : s.mem.tp.shutdown = 1 → s.mem.tp.dont_accept = 1 ∧ s.mem.tp.qsize = 0
  threads : s.workers.length = s.mem.tp.num_threads
  notCalled : s.destroyer = .notCalled → s.mem.tp.dont_accept = 0
  draining : s.destroyer = .draining → s.mem.tp.dont_accept = 1
  joining : ∀ i, s.destroyer = .joining i →
    s.mem.tp.shutdown = 1 ∧ ∀ j, j < i → s.workers.get? j = some .exited
  destroyed : s.destroyer = .destroyed →
    s.mem.tp.shutdown = 1 ∧ ∀ pc ∈ s.workers, pc = .exited
  exited : WorkerPc.exited ∈ s.workers → s.mem.tp.shutdown = 1

/-- The invariant of the pool. -/
def Inv (s : System) : Prop := (∃ nodes, QueueOk s.mem s.workers nodes) ∧ FlagsOk s

/-- How many more steps a worker needs at least before it has exited. -/
def WorkerPc.weight : WorkerPc → Nat
  | .running _ => 2
  | .top => 1
  | .waiting => 1
  | .exited => 0

/-- How far `destroy_threadpool` is from returning, for a pool of `n` threads. -/
def DestroyPc.rank (n : Nat) : DestroyPc → Nat
  | .notCalled => n + 3
  | .draining => n + 2
  | .joining i => n - i + 1
  | .destroyed => 0

/-- A bound on the number of steps, none of them a call of `dispatch`, after
which `destroy_threadpool` has returned. -/
def stepsLeft (s : System) : Nat :=
  2 * s.mem.tp.qsize.toNat + (s.workers.map WorkerPc.weight).sum
    + s.destroyer.rank s.mem.tp.num_threads

/-! ## Theorems: the ELF classifier -/

theorem storeAt_zero_full (got : List Byte) (h : got.length = 16) :
    storeAt [0, 0, 0, 0, 0, 0, 0, 0, 0, 0, 0, 0, 0, 0, 0, 0] 0 got = got := by
  simp [storeAt, h]

/-- C3, counterexample: a file that can be opened, and even starts with the magic
template, makes `IsELFFile` throw when the device fails its read. -/
theorem IsELFFile_throws_on_failed_read :
    (File.mk true magic_header (some 0)).openable = true ∧
    IsELFFile (File.mk true magic_header (some 0)) = .threw (.failedToRead .IsELFFile) := by
  decide

/-- C3, amended: for a file that can be opened and whose read is served by the
device, `IsELFFile` raises no error and returns true exactly when the file has at
least 16 bytes and its first 16 bytes are the magic template. -/
theorem IsELFFile_spec (f : File) (hopen : f.openable = true) (hread : f.goodReads ≠ some 0) :
    IsELFFile f
      = .returned (decide (16 ≤ f.content.length ∧ f.content.take 16 = magic_header)) := by
  obtain ⟨o, content, budget⟩ := f
  simp only at hopen hread
  subst hopen
  by_cases hlen : 16 ≤ content.length
  · have htake : (content.take 16).length = 16 := by simp [hlen]
    have hst := storeAt_zero_full (content.take 16) htake
    cases budget with
    | none =>
      simp [IsELFFile, ifstream.open, ifstream.fail, ifstream.read, ifstream.good, ifstream.eof,
        htake, hlen, hst, eq_comm]
    | some k =>
      cases k with
      | zero => exact absurd rfl hread
      | succ k =>
        simp [IsELFFile, ifstream.open, ifstream.fail, ifstream.read, ifstream.good, ifstream.eof,
          htake, hlen, hst, eq_comm]
  · have hlt : content.length < 16 := Nat.lt_of_not_le hlen
    have htake : (content.take 16).length = content.length := by
      simp [Nat.le_of_lt hlt]
    have hne : content.length ≠ 16 := Nat.ne_of_lt hlt
    cases budget with
    | none =>
      simp [IsELFFile, ifstream.open, ifstream.fail, ifstream.read, ifstream.good, ifstream.eof,
        htake, hlen, hlt, hne]
    | some k =>
      cases k with
      | zero => exact absurd rfl hread
      | succ k =>
        simp [IsELFFile, ifstream.open, ifstream.fail, ifstream.read, ifstream.good, ifstream.eof,
          htake, hlen, hlt, hne]

/-- C3, witness: the magic template alone is classified as ELF, a file whose first
byte differs is not, and a 10-byte file is not, each without an error. -/
theorem IsELFFile_spec_witness :
    IsELFFile (File.mk true magic_header none) = .returned true ∧
    IsELFFile (File.mk true (0 :: magic_header.tail) none) = .returned false ∧
    IsELFFile (File.mk true (magic_header.take 10) none) = .returned false :=
  ⟨(IsELFFile_spec (File.mk true magic_header none) rfl (by decide)).trans (by decide),
   (IsELFFile_spec (File.mk true (0 :: magic_header.tail) none) rfl (by decide)).trans (by decide),
   (IsELFFile_spec (File.mk true (magic_header.take 10) none) rfl (by decide)).trans (by decide)⟩

/-! ## Theorems: the streaming matcher -/

/-- C1, the code at the failing input: the pattern `ab` occurs at offset
`BUFFER_SIZE - 1` of the file, yet `Contains` does not return true. The first
`read` stores through the null `read_pointer`; and were the first chunk stored at
the start of the buffer, the result would be false, because the bytes carried
over are the last bytes of the buffer, not the last bytes of the chunk. -/
theorem Contains_misses_first_boundary :
    (boundaryFile.content.drop (BUFFER_SIZE - 1)).take 2 = [97, 98] ∧
    Contains [97, 98] (ifstream.open boundaryFile) = .undefined .nullStore ∧
    (ContainsFrom (some 0) [97, 98] (ifstream.open boundaryFile)).result = .returned false := by
  decide!

/-- C2, the code at the failing input: the file `00 61 00` holds the bytes of
the pattern `61 00 00` permuted and does not contain the pattern, yet `Contains`
does not return false. The first `read` stores through the null `read_pointer`;
and were the first chunk stored at the start of the buffer, the result would be
true, because the searched range runs `pattern_.size() - 1` bytes past the bytes
read. -/
theorem Contains_not_false_without_occurrence :
    (File.mk true [0, 97, 0] none).content.Perm [97, 0, 0] ∧
    ¬ ([97, 0, 0] <:+: (File.mk true [0, 97, 0] none).content) ∧
    Contains [97, 0, 0] (ifstream.open (File.mk true [0, 97, 0] none))
      = .undefined .nullStore ∧
    (ContainsFrom (some 0) [97, 0, 0] (ifstream.open (File.mk true [0, 97, 0] none))).result
      = .returned true ∧
    (ContainsFrom (some 0) [97, 0, 0] (ifstream.open (File.mk true [0, 97, 0] none))).searched
      = [[0, 97, 0, 0, 0]] := by
  decide!

/-- C10, the code at the failing input: for the pattern `ab` and the one-byte file
`x` the specification has one searched range, holding the byte `x`. The code
searches nothing, because the first `read` stores through the null
`read_pointer`; and were the first chunk stored at the start of the buffer, the
searched range would hold `x` and a zero byte that is not in the file. -/
theorem Contains_first_window_differs :
    specWindows 2 (File.mk true [120] none).content = [[120]] ∧
    (ContainsRun.of [97, 98] (ifstream.open (File.mk true [120] none))).searched = [] ∧
    Contains [97, 98] (ifstream.open (File.mk true [120] none)) = .undefined .nullStore ∧
    (ContainsFrom (some 0) [97, 98] (ifstream.open (File.mk true [120] none))).searched
      = [[120, 0]] := by
  decide!

/-! ## Theorems: the report and the task entry point -/

/-- Lines 103-118 for any behaviour of the `Contains` they call: for a path whose
file can be opened, the routine writes exactly `File `, the path as `std::quoted`
prints it, ` is infected!` and a line end when that `Contains` returns true, and
nothing when it returns false. -/
theorem ReportInfectedFile_output (contains : List Byte → ifstream → ContainsRun)
    (this : PatternScanner) (fs : String → File) (file_path : String)
    (hopen : (fs file_path).openable = true) :
    ((contains this.pattern_ (ifstream.open (fs file_path))).result = .returned true →
      (ReportInfectedFileWith contains this fs file_path).stdout
        = "File " ++ quoted file_path ++ " is infected!" ++ endl) ∧
    ((contains this.pattern_ (ifstream.open (fs file_path))).result = .returned false →
      (ReportInfectedFileWith contains this fs file_path).stdout = "") := by
  have hfail : (ifstream.open (fs file_path)).fail = false := by
    simp [ifstream.open, ifstream.fail, hopen]
  constructor
  · intro h
    simp [ReportInfectedFileWith, hfail, h]
  · intro h
    simp [ReportInfectedFileWith, hfail, h]
    split <;> rfl

/-- C9, counterexample: for a task whose file cannot be opened, `ThreadEntry` does
not return: the failure raised by `ReportInfectedFile` leaves it. -/
theorem ThreadEntry_throws_on_unopenable :
    (ThreadEntry (fun _ => File.mk false [] none) ⟨⟨"", [97]⟩, "a"⟩).completion
      = .threw (.failedToOpen .ReportInfectedFile) := by
  decide

/-- C9, amended: `ThreadEntry` does not confine the fault. When the file cannot be
opened, and when `Contains` returns false on a stream that has not reached its
end (a failed read), the failure raised by `ReportInfectedFile` propagates out of
`ThreadEntry`, which returns `0` only when `ReportInfectedFile` returns. -/
theorem ThreadEntry_propagates (contains : List Byte → ifstream → ContainsRun)
    (fs : String → File) (ctx : ThreadContext) :
    ((fs ctx.path).openable = false →
      (ThreadEntryWith contains fs ctx).completion
        = .threw (.failedToOpen .ReportInfectedFile)) ∧
    ((fs ctx.path).openable = true →
      (contains ctx.instance_.pattern_ (ifstream.open (fs ctx.path))).result = .returned false →
      (contains ctx.instance_.pattern_ (ifstream.open (fs ctx.path))).file.eof = false →
      (ThreadEntryWith contains fs ctx).completion
        = .threw (.failedToRead .ReportInfectedFile)) ∧
    ((ThreadEntryWith contains fs ctx).completion = .returned 0 ↔
      (ReportInfectedFileWith contains ctx.instance_ fs ctx.path).completion
        = .returned ()) := by
  refine ⟨?_, ?_, ?_⟩
  · intro h
    simp [ThreadEntryWith, ReportInfectedFileWith, ifstream.open, ifstream.fail, h]
  · intro h hres heof
    simp [ThreadEntryWith, ReportInfectedFileWith, ifstream.open, ifstream.fail, h] at *
    simp [hres, heof]
  · simp only [ThreadEntryWith]
    split <;> simp_all

/-- C9, witness: a file the device cannot read makes `ThreadEntry` end with the
read failure of `ReportInfectedFile`. -/
theorem ThreadEntry_propagates_witness :
    (ThreadEntry (fun _ => File.mk true [97] (some 0)) ⟨⟨"", [97]⟩, "a"⟩).completion
      = .threw (.failedToRead .ReportInfectedFile) :=
  (ThreadEntry_propagates ContainsRun.of (fun _ => File.mk true [97] (some 0))
    ⟨⟨"", [97]⟩, "a"⟩).2.1 rfl (by decide!) (by decide!)

/-! ## Theorems: the heap of work items -/

theorem Heap.lookup_filter_ne (h : Heap) (a b : Nat) (hne : b ≠ a) :
    List.lookup b (h.filter (fun p => p.1 != a)) = List.lookup b h := by
  induction h with
  | nil => rfl
  | cons p rest ih =>
    obtain ⟨k, w⟩ := p
    by_cases hk : k = a
    · subst hk
      have hbk : (b == k) = false := by simpa using hne
      simp [List.filter_cons, List.lookup_cons, hbk, ih]
    · have hka : (k != a) = true := by simpa using hk
      simp only [List.filter_cons, hka, if_true, List.lookup_cons, ih]

theorem Heap.lookup_filter_same (h : Heap) (a : Nat) :
    List.lookup a (h.filter (fun p => p.1 != a)) = none := by
  induction h with
  | nil => rfl
  | cons p rest ih =>
    obtain ⟨k, w⟩ := p
    by_cases hk : k = a
    · subst hk
      simp [List.filter_cons, ih]
    · have hka : (k != a) = true := by simpa using hk
      have hak : (a == k) = false := by simpa using fun h : a = k => hk h.symm
      simp only [List.filter_cons, hka, if_true, List.lookup_cons, hak, ih]

theorem Heap.filter_fresh (h : Heap) (a : Nat) (hf : List.lookup a h = none) :
    h.filter (fun p => p.1 != a) = h := by
  induction h with
  | nil => rfl
  | cons p rest ih =>
    obtain ⟨k, w⟩ := p
    by_cases hk : a = k
    · subst hk
      simp [List.lookup_cons] at hf
    · have hak : (a == k) = false := by simpa using hk
      have hka : (k != a) = true := by simpa using fun h : k = a => hk h.symm
      simp only [List.lookup_cons, hak] at hf
      simp only [List.filter_cons, hka, if_true, ih hf]

theorem Heap.get_set_same (h : Heap) (a : Nat) (w : work_t) : (h.set a w).get a = some w := by
  simp [Heap.get, Heap.set, List.lookup_cons]

theorem Heap.get_set_ne (h : Heap) (a b : Nat) (w : work_t) (hne : b ≠ a) :
    (h.set a w).get b = h.get b := by
  have hba : (b == a) = false := by simpa using hne
  simp only [Heap.get, Heap.set, List.lookup_cons, hba]
  exact Heap.lookup_filter_ne h a b hne

theorem Heap.get_free_same (h : Heap) (a : Nat) : (h.free a).get a = none :=
  Heap.lookup_filter_same h a

theorem Heap.get_free_ne (h : Heap) (a b : Nat) (hne : b ≠ a) : (h.free a).get b = h.get b :=
  Heap.lookup_filter_ne h a b hne

theorem Heap.free_set_fresh (h : Heap) (a : Nat) (w : work_t) (hf : h.get a = none) :
    (h.set a w).free a = h := by
  have hx : ((a, w) :: h.filter (fun p => p.1 != a)).filter (fun p => p.1 != a)
      = h.filter (fun p => p.1 != a) := by
    simp [List.filter_cons]
  simp only [Heap.free, Heap.set, hx]
  exact Heap.filter_fresh h a hf

/-! ## Theorems: a rejected dispatch -/

theorem dispatch_of_dont_accept (m : Shared) (a f x : Nat)
    (hdrain : m.tp.dont_accept ≠ 0) :
    dispatch m a f x = some { m with heap := (m.heap.set a ⟨f, x, none⟩).free a } := by
  simp [dispatch, hdrain]

/-- C6: once draining has begun (`dont_accept` is set, in particular when it is 1),
`dispatch` returns normally and rejects the task: the pool structure (`qhead`,
`qtail`, `qsize` and the flags) and the history of enqueued tasks are unchanged,
and, `malloc` having returned an address that was not live, so is the heap of
work items, the work item allocated for the task having been freed again. -/
theorem dispatch_rejects_while_draining (m : Shared) (new_work dispatch_to_here arg : Nat)
    (hdrain : m.tp.dont_accept ≠ 0) :
    ∃ m', dispatch m new_work dispatch_to_here arg = some m' ∧
      m'.tp = m.tp ∧ m'.log = m.log ∧
      (m.heap.get new_work = none →
        m' = m ∧ ∀ n, queuedTasks m'.heap n m'.tp.qhead = queuedTasks m.heap n m.tp.qhead) := by
  refine ⟨_, dispatch_of_dont_accept m new_work dispatch_to_here arg hdrain, rfl, rfl, ?_⟩
  intro hfresh
  have hm : ({ m with heap := (m.heap.set new_work ⟨dispatch_to_here, arg, none⟩).free new_work }
      : Shared) = m := by
    rw [Heap.free_set_fresh m.heap new_work _ hfresh]
  rw [hm]
  exact ⟨rfl, fun _ => rfl⟩

/-- C6, witness: a pool that is draining with one task queued rejects a task and
stays as it is. -/
theorem dispatch_rejects_while_draining_witness :
    dispatch ⟨⟨1, 1, some 5, some 5, 1, 0⟩, [(5, ⟨1, 10, none⟩)], [.enqueued (1, 10)]⟩ 6 2 20
      = some ⟨⟨1, 1, some 5, some 5, 1, 0⟩, [(5, ⟨1, 10, none⟩)], [.enqueued (1, 10)]⟩ := by
  obtain ⟨m', h1, _, _, h4⟩ := dispatch_rejects_while_draining
    ⟨⟨1, 1, some 5, some 5, 1, 0⟩, [(5, ⟨1, 10, none⟩)], [.enqueued (1, 10)]⟩ 6 2 20 (by decide)
  rw [h1, (h4 (by decide)).1]

/-! ## Theorems: the invariant of the pool -/

theorem Chain.frame {heap heap' : Heap} {nodes : List Nat} :
    ∀ {p : Option Nat}, (∀ a ∈ nodes, heap'.get a = heap.get a) →
      Chain heap p nodes → Chain heap' p nodes := by
  induction nodes with
  | nil => intro p _ h; exact h
  | cons b rest ih =>
    intro p hsame h
    obtain ⟨hp, w, hw, hrest⟩ := h
    refine ⟨hp, w, ?_, ih (fun a ha => hsame a (List.mem_cons_of_mem _ ha)) hrest⟩
    rw [hsame b (List.mem_cons_self _ _)]
    exact hw

theorem Chain.live {heap : Heap} {nodes : List Nat} :
    ∀ {p : Option Nat}, Chain heap p nodes → ∀ a ∈ nodes, ∃ w, heap.get a = some w := by
  induction nodes with
  | nil => intro p _ a ha; cases ha
  | cons b rest ih =>
    intro p h a ha
    obtain ⟨_, w, hw, hrest⟩ := h
    rcases List.mem_cons.1 ha with rfl | ha
    · exact ⟨w, hw⟩
    · exact ih hrest a ha

/-- Linking a fresh work item behind the last one extends the chain. -/
theorem Chain.snoc {heap : Heap} {init : List Nat} {t a : Nat} (wt : work_t) {wa : work_t}
    (hnd : (init ++ [t]).Nodup) (hat : a ≠ t) (hai : a ∉ init)
    (ha : heap.get a = some wa) (hnext : wa.next = none) :
    ∀ {p : Option Nat}, Chain heap p (init ++ [t]) →
      Chain (heap.set t { wt with next := some a }) p (init ++ [t] ++ [a]) := by
  induction init with
  | nil =>
    intro p h
    obtain ⟨hp, w, hw, _⟩ := h
    refine ⟨hp, _, Heap.get_set_same _ _ _, rfl, wa, ?_, hnext⟩
    rw [Heap.get_set_ne _ _ _ _ hat]
    exact ha
  | cons b rest ih =>
    intro p h
    obtain ⟨hp, w, hw, hrest⟩ := h
    have hnd' : (rest ++ [t]).Nodup := (List.nodup_cons.1 hnd).2
    have hbt : b ≠ t := by
      intro hbt
      exact (List.nodup_cons.1 hnd).1 (by simp [hbt])
    refine ⟨hp, w, ?_, ih hnd' (fun h => hai (List.mem_cons_of_mem _ h)) hrest⟩
    rw [Heap.get_set_ne _ _ _ _ hbt]
    exact hw

theorem taskAt_set_next (heap : Heap) (t b : Nat) (wt : work_t) (n : Option Nat)
    (ht : heap.get t = some wt) :
    taskAt (heap.set t { wt with next := n }) b = taskAt heap b := by
  by_cases hb : b = t
  · subst hb
    simp [taskAt, Heap.get_set_same, ht]
  · simp [taskAt, Heap.get_set_ne _ _ _ _ hb]

theorem taskAt_set_ne (heap : Heap) (a b : Nat) (w : work_t) (hb : b ≠ a) :
    taskAt (heap.set a w) b = taskAt heap b := by
  simp [taskAt, Heap.get_set_ne _ _ _ _ hb]

theorem taskAt_free_ne (heap : Heap) (a b : Nat) (hb : b ≠ a) :
    taskAt (heap.free a) b = taskAt heap b := by
  simp [taskAt, Heap.get_free_ne _ _ _ hb]

theorem filterMap_taskAt_congr (heap heap' : Heap) (l : List Nat)
    (h : ∀ a ∈ l, taskAt heap' a = taskAt heap a) :
    l.filterMap (taskAt heap') = l.filterMap (taskAt heap) := by
  induction l with
  | nil => rfl
  | cons b rest ih =>
    simp only [List.filterMap_cons, h b (List.mem_cons_self _ _),
      ih (fun a ha => h a (List.mem_cons_of_mem _ ha))]

/-- The executable walk along the chain lists the tasks of the queued items. -/
theorem queuedTasks_of_chain {heap : Heap} {nodes : List Nat} :
    ∀ {p : Option Nat}, Chain heap p nodes →
      queuedTasks heap nodes.length p = nodes.filterMap (taskAt heap) := by
  induction nodes with
  | nil => intro p _; rfl
  | cons b rest ih =>
    intro p h
    obtain ⟨hp, w, hw, hrest⟩ := h
    subst hp
    simp [queuedTasks, hw, taskAt, ih hrest]

/-- Splitting the list of workers at worker `i`. -/
theorem workers_split {ws : List WorkerPc} {i : Nat} {pc : WorkerPc}
    (h : ws.get? i = some pc) :
    ∃ l r, ws = l ++ pc :: r ∧ l.length = i ∧ ∀ pc', ws.set i pc' = l ++ pc' :: r := by
  induction ws generalizing i with
  | nil => simp at h
  | cons q rest ih =>
    cases i with
    | zero =>
      simp at h
      subst h
      exact ⟨[], rest, rfl, rfl, fun _ => rfl⟩
    | succ i =>
      have h' : rest.get? i = some pc := by simpa using h
      obtain ⟨l, r, hl, hlen, hset⟩ := ih h'
      refine ⟨q :: l, r, by simp [hl], by simp [hlen], fun pc' => ?_⟩
      simp [List.set, hset pc']

theorem held_append (l r : List WorkerPc) : held (l ++ r) = held l ++ held r := by
  simp [held]

theorem held_cons (pc : WorkerPc) (r : List WorkerPc) : held (pc :: r) = pc.holds ++ held r := by
  simp [held]

theorem live_set {heap : Heap} {b : Nat} (c : Nat) (w' : work_t)
    (h : ∃ w, heap.get b = some w) : ∃ w, (heap.set c w').get b = some w := by
  by_cases hb : b = c
  · subst hb
    exact ⟨w', Heap.get_set_same _ _ _⟩
  · rw [Heap.get_set_ne _ _ _ _ hb]
    exact h

theorem enqueuedTasks_append (l l' : List Event) :
    enqueuedTasks (l ++ l') = enqueuedTasks l ++ enqueuedTasks l' := by
  simp [enqueuedTasks]

theorem dequeuedTasks_append (l l' : List Event) :
    dequeuedTasks (l ++ l') = dequeuedTasks l ++ dequeuedTasks l' := by
  simp [dequeuedTasks]

theorem calledTasks_append (l l' : List Event) :
    calledTasks (l ++ l') = calledTasks l ++ calledTasks l' := by
  simp [calledTasks]

/-- An accepted `dispatch` keeps the invariant of the queue: it appends the new
work item and records the task as enqueued. -/
theorem QueueOk.dispatch {m : Shared} {ws : List WorkerPc} {nodes : List Nat}
    (h : QueueOk m ws nodes) (a f x : Nat) (hfresh : m.heap.get a = none)
    (hacc : m.tp.dont_accept = 0) :
    ∃ heap qh qt,
      dispatch m a f x
        = some { tp := { m.tp with qhead := qh, qtail := qt, qsize := m.tp.qsize + 1 }
                 heap := heap
                 log := m.log ++ [.enqueued (f, x)] } ∧
      QueueOk { tp := { m.tp with qhead := qh, qtail := qt, qsize := m.tp.qsize + 1 }
                heap := heap
                log := m.log ++ [.enqueued (f, x)] } ws (nodes ++ [a]) := by
  have hanodes : a ∉ nodes := by
    intro ha
    obtain ⟨w, hw⟩ := h.chain.live a ha
    rw [hfresh] at hw
    cases hw
  have haheld : a ∉ held ws := by
    intro ha
    obtain ⟨w, hw⟩ := h.live a ha
    rw [hfresh] at hw
    cases hw
  have hlog1 : enqueuedTasks (m.log ++ [Event.enqueued (f, x)])
      = enqueuedTasks m.log ++ [(f, x)] := by
    rw [enqueuedTasks_append]; rfl
  have hlog2 : dequeuedTasks (m.log ++ [Event.enqueued (f, x)]) = dequeuedTasks m.log := by
    rw [dequeuedTasks_append]; simp [dequeuedTasks]
  have hlog3 : calledTasks (m.log ++ [Event.enqueued (f, x)]) = calledTasks m.log := by
    rw [calledTasks_append]; simp [calledTasks]
  have hnd : (nodes ++ [a] ++ held ws).Nodup := by
    have hp : (nodes ++ [a] ++ held ws).Perm (a :: (nodes ++ held ws)) := by
      simp only [List.append_assoc, List.singleton_append]
      exact List.perm_middle
    rw [hp.nodup_iff]
    refine List.nodup_cons.2 ⟨?_, h.nodup⟩
    simp [hanodes, haheld]
  have hne : ∀ b, b ∈ nodes ∨ b ∈ held ws → b ≠ a := by
    intro b hb hba
    subst hba
    rcases hb with hb | hb
    · exact hanodes hb
    · exact haheld hb
  cases htl : m.tp.qtail with
  | none =>
    have hnil : nodes = [] := by
      have := h.tail
      rw [htl] at this
      exact List.getLast?_eq_none_iff.1 this.symm
    subst hnil
    refine ⟨m.heap.set a ⟨f, x, none⟩, some a, some a, ?_, ?_⟩
    · simp [VirusScanner.dispatch, hacc, enqueue, htl]
    · refine ⟨⟨rfl, _, Heap.get_set_same _ _ _, rfl⟩, rfl, ?_, hnd, ?_, h.noNull, ?_, ?_⟩
      · simp [h.size]
      · intro b hb
        exact live_set _ _ (h.live b hb)
      · simp only [hlog1, hlog2, h.enq]
        simp [taskAt, Heap.get_set_same]
      · simp only [hlog2, hlog3]
        rw [filterMap_taskAt_congr m.heap _ (held ws)
          (fun b hb => taskAt_set_ne _ _ _ _ (hne b (Or.inr hb)))]
        exact h.deq
  | some t =>
    obtain ⟨init, hinit⟩ := List.getLast?_eq_some_iff.1 (h.tail.symm.trans htl)
    have htn : t ∈ nodes := by simp [hinit]
    obtain ⟨wt, hwt⟩ := h.chain.live t htn
    have hta : t ≠ a := hne t (Or.inl htn)
    have hwt1 : (m.heap.set a ⟨f, x, none⟩).get t = some wt := by
      rw [Heap.get_set_ne _ _ _ _ hta]; exact hwt
    have htask : ∀ b, b ≠ a →
        taskAt ((m.heap.set a ⟨f, x, none⟩).set t { wt with next := some a }) b
          = taskAt m.heap b := by
      intro b hb
      rw [taskAt_set_next _ _ _ _ _ hwt1, taskAt_set_ne _ _ _ _ hb]
    have htaska :
        taskAt ((m.heap.set a ⟨f, x, none⟩).set t { wt with next := some a }) a
          = some (f, x) := by
      rw [taskAt_set_next _ _ _ _ _ hwt1]
      simp [taskAt, Heap.get_set_same]
    refine ⟨(m.heap.set a ⟨f, x, none⟩).set t { wt with next := some a },
      m.tp.qhead, some a, ?_, ?_⟩
    · simp [VirusScanner.dispatch, hacc, enqueue, htl, hwt1]
    · refine ⟨?_, ?_, ?_, hnd, ?_, h.noNull, ?_, ?_⟩
      · have hc : Chain (m.heap.set a ⟨f, x, none⟩) m.tp.qhead (init ++ [t]) := by
          rw [← hinit]
          refine Chain.frame ?_ h.chain
          intro b hb
          exact Heap.get_set_ne _ _ _ _ (hne b (Or.inl hb))
        have hndn : (init ++ [t]).Nodup := by
          rw [← hinit]
          exact (List.nodup_append.1 h.nodup).1
        have hai : a ∉ init := by
          intro hai
          exact hanodes (by simp [hinit, hai])
        have := Chain.snoc wt hndn hta.symm hai (Heap.get_set_same m.heap a ⟨f, x, none⟩) rfl hc
        rw [hinit]
        exact this
      · exact (List.getLast?_concat nodes).symm
      · simp [h.size]
      · intro b hb
        exact live_set _ _ (live_set _ _ (h.live b hb))
      · have e1 := filterMap_taskAt_congr m.heap _ nodes
          (fun b hb => htask b (hne b (Or.inl hb)))
        have e2 : [a].filterMap
            (taskAt ((m.heap.set a ⟨f, x, none⟩).set t { wt with next := some a }))
              = [(f, x)] := by
          simp [htaska]
        simp only [hlog1, hlog2, h.enq, List.filterMap_append, List.append_assoc, e1, e2]
      · simp only [hlog2, hlog3]
        rw [filterMap_taskAt_congr m.heap _ (held ws)
          (fun b hb => htask b (hne b (Or.inr hb)))]
        exact h.deq

/-- A worker that holds nothing and moves to a state in which it holds nothing
keeps the invariant of the queue. -/
theorem QueueOk.idle {m : Shared} {ws : List WorkerPc} {nodes : List Nat}
    (h : QueueOk m ws nodes) {i : Nat} {pc : WorkerPc} (pc' : WorkerPc)
    (hi : ws.get? i = some pc) (hpc : pc.holds = []) (hpc' : pc'.holds = [])
    (hnn : pc' ≠ .running none) :
    QueueOk m (ws.set i pc') nodes := by
  obtain ⟨l, r, hws, _, hset⟩ := workers_split hi
  have hheld : held (ws.set i pc') = held ws := by
    rw [hset pc', hws]
    simp [held_append, held_cons, hpc, hpc']
  refine ⟨h.chain, h.tail, h.size, ?_, ?_, ?_, h.enq, ?_⟩
  · rw [hheld]; exact h.nodup
  · rw [hheld]; exact h.live
  · rw [hset pc']
    intro hmem
    have hno := h.noNull
    rw [hws] at hno
    simp only [List.mem_append, List.mem_cons] at hmem hno
    rcases hmem with hm | hm | hm
    · exact hno (Or.inl hm)
    · exact hnn hm.symm
    · exact hno (Or.inr (Or.inr hm))
  · rw [hheld]; exact h.deq

/-- Taking a work item off a queue that is not empty keeps the invariant of the
queue: `dequeue` returns the first work item, which the worker now holds. -/
theorem QueueOk.take {m : Shared} {ws : List WorkerPc} {nodes : List Nat}
    (h : QueueOk m ws nodes) {i : Nat} {pc : WorkerPc}
    (hi : ws.get? i = some pc) (hpc : pc.holds = []) (hq : m.tp.qsize ≠ 0) :
    ∃ d w qt rest,
      m.heap.get d = some w ∧
      dequeue m.heap m.tp.qhead m.tp.qtail = some (some d, w.next, qt) ∧
      QueueOk { m with tp := { m.tp with qhead := w.next, qtail := qt, qsize := m.tp.qsize - 1 }
                       log := m.log ++ [.dequeued (w.routine, w.arg)] }
        (ws.set i (.running (some d))) rest := by
  obtain ⟨l, r, hws, _, hset⟩ := workers_split hi
  cases nodes with
  | nil => exact absurd (by simpa using h.size) hq
  | cons d rest =>
    obtain ⟨hp, w, hw, hrest⟩ := h.chain
    have hheld : held ws = held l ++ held r := by
      rw [hws]; simp [held_append, held_cons, hpc]
    have hheld' : held (ws.set i (.running (some d))) = held l ++ d :: held r := by
      rw [hset]; simp [held_append, held_cons, WorkerPc.holds]
    have hperm : (held l ++ d :: held r).Perm (d :: held ws) := by
      rw [hheld]; exact List.perm_middle
    have hlog1 : enqueuedTasks (m.log ++ [Event.dequeued (w.routine, w.arg)])
        = enqueuedTasks m.log := by
      rw [enqueuedTasks_append]; simp [enqueuedTasks]
    have hlog2 : dequeuedTasks (m.log ++ [Event.dequeued (w.routine, w.arg)])
        = dequeuedTasks m.log ++ [(w.routine, w.arg)] := by
      rw [dequeuedTasks_append]; rfl
    have hlog3 : calledTasks (m.log ++ [Event.dequeued (w.routine, w.arg)])
        = calledTasks m.log := by
      rw [calledTasks_append]; simp [calledTasks]
    have htd : taskAt m.heap d = some (w.routine, w.arg) := by simp [taskAt, hw]
    refine ⟨d, w, if w.next = none then none else m.tp.qtail, rest, hw, ?_, ?_⟩
    · simp [dequeue, hp, hw]
    · refine ⟨hrest, ?_, ?_, ?_, ?_, ?_, ?_, ?_⟩
      · cases rest with
        | nil =>
          have hn : w.next = none := hrest
          simp [hn]
        | cons c rest' =>
          have hn : w.next = some c := hrest.1
          simp [hn, h.tail]
      · have := h.size
        simp only [List.length_cons, Nat.cast_add, Nat.cast_one] at this
        simp only [this]
        omega
      · rw [hheld']
        have hp2 : (rest ++ (held l ++ d :: held r)).Perm (d :: rest ++ held ws) := by
          have h1 : (rest ++ (held l ++ d :: held r)).Perm (rest ++ d :: held ws) :=
            List.Perm.append_left rest hperm
          exact h1.trans (by simp)
        rw [hp2.nodup_iff]
        exact h.nodup
      · rw [hheld']
        intro b hb
        rcases List.mem_cons.1 (hperm.mem_iff.1 hb) with rfl | hb
        · exact ⟨w, hw⟩
        · exact h.live b hb
      · rw [hset]
        intro hmem
        have hno := h.noNull
        rw [hws] at hno
        simp only [List.mem_append, List.mem_cons] at hmem hno
        rcases hmem with hm | hm | hm
        · exact hno (Or.inl hm)
        · cases hm
        · exact hno (Or.inr (Or.inr hm))
      · simp only [hlog1, hlog2, h.enq, List.filterMap_cons, htd, List.append_assoc,
          List.singleton_append]
      · simp only [hlog2, hlog3]
        rw [hheld']
        have hp3 : ((held l ++ d :: held r).filterMap (taskAt m.heap)).Perm
            ((w.routine, w.arg) :: (held ws).filterMap (taskAt m.heap)) := by
          have := hperm.filterMap (taskAt m.heap)
          simpa [List.filterMap_cons, htd] using this
        have hp4 : (dequeuedTasks m.log ++ [(w.routine, w.arg)]).Perm
            ((w.routine, w.arg) :: (calledTasks m.log ++ (held ws).filterMap (taskAt m.heap))) := by
          refine (List.perm_append_singleton _ _).trans ?_
          exact List.Perm.cons _ h.deq
        refine hp4.trans ?_
        refine List.Perm.symm ?_
        refine (List.Perm.append_left _ hp3).trans ?_
        exact List.perm_middle

/-- Calling the routine of the held work item and freeing it keeps the invariant
of the queue; the held pointer is not `NULL` and the work item is live. -/
theorem QueueOk.after_run {m : Shared} {ws : List WorkerPc} {nodes : List Nat}
    (h : QueueOk m ws nodes) {i : Nat} {to_do : Option Nat}
    (hi : ws.get? i = some (.running to_do)) :
    ∃ a w, to_do = some a ∧ m.heap.get a = some w ∧
      QueueOk { m with heap := m.heap.free a, log := m.log ++ [.called (w.routine, w.arg)] }
        (ws.set i .top) nodes := by
  obtain ⟨l, r, hws, _, hset⟩ := workers_split hi
  cases to_do with
  | none =>
    exfalso
    apply h.noNull
    rw [hws]
    simp
  | some a =>
    have hheld : held ws = held l ++ a :: held r := by
      rw [hws]; simp [held_append, held_cons, WorkerPc.holds]
    have hheld' : held (ws.set i .top) = held l ++ held r := by
      rw [hset]; simp [held_append, held_cons, WorkerPc.holds]
    have hperm : (held ws).Perm (a :: (held l ++ held r)) := by
      rw [hheld]; exact List.perm_middle
    have hmem : a ∈ held ws := hperm.mem_iff.2 (List.mem_cons_self _ _)
    obtain ⟨w, hw⟩ := h.live a hmem
    have hnd : (a :: (nodes ++ (held l ++ held r))).Nodup := by
      have hp : (nodes ++ held ws).Perm (a :: (nodes ++ (held l ++ held r))) := by
        refine (List.Perm.append_left nodes hperm).trans ?_
        exact List.perm_middle
      exact hp.nodup_iff.1 h.nodup
    have hne : ∀ b, b ∈ nodes ∨ b ∈ held l ++ held r → b ≠ a := by
      intro b hb hba
      subst hba
      exact (List.nodup_cons.1 hnd).1 (List.mem_append.2 hb)
    have hlog1 : enqueuedTasks (m.log ++ [Event.called (w.routine, w.arg)])
        = enqueuedTasks m.log := by
      rw [enqueuedTasks_append]; simp [enqueuedTasks]
    have hlog2 : dequeuedTasks (m.log ++ [Event.called (w.routine, w.arg)])
        = dequeuedTasks m.log := by
      rw [dequeuedTasks_append]; simp [dequeuedTasks]
    have hlog3 : calledTasks (m.log ++ [Event.called (w.routine, w.arg)])
        = calledTasks m.log ++ [(w.routine, w.arg)] := by
      rw [calledTasks_append]; rfl
    have hta : taskAt m.heap a = some (w.routine, w.arg) := by simp [taskAt, hw]
    refine ⟨a, w, rfl, hw, ?_, h.tail, h.size, ?_, ?_, ?_, ?_, ?_⟩
    · refine Chain.frame ?_ h.chain
      intro b hb
      exact Heap.get_free_ne _ _ _ (hne b (Or.inl hb))
    · rw [hheld']
      exact (List.nodup_cons.1 hnd).2
    · rw [hheld']
      intro b hb
      have hb' : b ∈ held ws := hperm.mem_iff.2 (List.mem_cons_of_mem _ hb)
      obtain ⟨wb, hwb⟩ := h.live b hb'
      refine ⟨wb, ?_⟩
      show (m.heap.free a).get b = some wb
      rw [Heap.get_free_ne _ _ _ (hne b (Or.inr hb))]
      exact hwb
    · rw [hset]
      intro hm
      have hno := h.noNull
      rw [hws] at hno
      simp only [List.mem_append, List.mem_cons] at hm hno
      rcases hm with hm | hm | hm
      · exact hno (Or.inl hm)
      · cases hm
      · exact hno (Or.inr (Or.inr hm))
    · simp only [hlog1, hlog2, h.enq]
      rw [filterMap_taskAt_congr m.heap _ nodes
        (fun b hb => taskAt_free_ne _ _ _ (hne b (Or.inl hb)))]
    · simp only [hlog2, hlog3]
      rw [hheld', filterMap_taskAt_congr m.heap _ (held l ++ held r)
        (fun b hb => taskAt_free_ne _ _ _ (hne b (Or.inr hb)))]
      have hp3 : ((held ws).filterMap (taskAt m.heap)).Perm
          ((w.routine, w.arg) :: (held l ++ held r).filterMap (taskAt m.heap)) := by
        have := hperm.filterMap (taskAt m.heap)
        simpa [List.filterMap_cons, hta] using this
      refine h.deq.trans ?_
      refine (List.Perm.append_left _ hp3).trans ?_
      simp only [List.append_assoc, List.singleton_append]
      exact List.Perm.refl _

/-- A step of a worker that has not exited, and that keeps the flags, keeps the
invariant of the flags. -/
theorem FlagsOk.worker {s : System} (h : FlagsOk s) {i : Nat} {pc : WorkerPc}
    (pc' : WorkerPc) (m' : Shared)
    (hi : s.workers.get? i = some pc) (hne : pc ≠ .exited)
    (hda : m'.tp.dont_accept = s.mem.tp.dont_accept)
    (hsh : m'.tp.shutdown = s.mem.tp.shutdown)
    (hn : m'.tp.num_threads = s.mem.tp.num_threads)
    (hq : s.mem.tp.shutdown = 1 → m'.tp.qsize = 0)
    (hex : pc' = .exited → s.mem.tp.shutdown = 1) :
    FlagsOk { s with mem := m', workers := s.workers.set i pc' } := by
  have hmem : pc ∈ s.workers := by
    rw [List.mem_iff_getElem?]
    exact ⟨i, by simpa using hi⟩
  refine ⟨?_, ?_, ?_, ?_, ?_, ?_, ?_, ?_, ?_⟩
  · show m'.tp.dont_accept = 0 ∨ m'.tp.dont_accept = 1
    rw [hda]; exact h.accept01
  · show m'.tp.shutdown = 0 ∨ m'.tp.shutdown = 1
    rw [hsh]; exact h.shutdown01
  · show m'.tp.shutdown = 1 → m'.tp.dont_accept = 1 ∧ m'.tp.qsize = 0
    rw [hsh, hda]
    intro h1
    exact ⟨(h.shut h1).1, hq h1⟩
  · show (s.workers.set i pc').length = m'.tp.num_threads
    rw [hn, List.length_set]; exact h.threads
  · show s.destroyer = .notCalled → m'.tp.dont_accept = 0
    rw [hda]; exact h.notCalled
  · show s.destroyer = .draining → m'.tp.dont_accept = 1
    rw [hda]; exact h.draining
  · show ∀ k, s.destroyer = .joining k →
      m'.tp.shutdown = 1 ∧ ∀ j, j < k → (s.workers.set i pc').get? j = some .exited
    intro k hk
    obtain ⟨h1, h2⟩ := h.joining k hk
    refine ⟨hsh.trans h1, fun j hj => ?_⟩
    have hj' := h2 j hj
    have hij : i ≠ j := by
      intro hij
      subst hij
      rw [hi] at hj'
      exact hne (Option.some.inj hj')
    simpa [List.getElem?_set_ne hij] using hj'
  · show s.destroyer = .destroyed →
      m'.tp.shutdown = 1 ∧ ∀ q ∈ s.workers.set i pc', q = .exited
    intro hd
    exact absurd ((h.destroyed hd).2 pc hmem) hne
  · show WorkerPc.exited ∈ s.workers.set i pc' → m'.tp.shutdown = 1
    intro hin
    rw [hsh]
    obtain ⟨l, r, hws, _, hset⟩ := workers_split hi
    rw [hset pc'] at hin
    simp only [List.mem_append, List.mem_cons] at hin
    rcases hin with hin | hin | hin
    · exact h.exited (by rw [hws]; simp [hin])
    · exact hex hin.symm
    · exact h.exited (by rw [hws]; simp [hin])

/-- The test of the inner `while` of `do_work` never runs into undefined
behaviour and keeps the invariant. -/
theorem Inv.do_work_wait {s : System} (hinv : Inv s) {i : Nat} {pc : WorkerPc}
    (hi : s.workers.get? i = some pc) (hpc : pc.holds = []) (hne : pc ≠ .exited) :
    ∃ m' pc', VirusScanner.do_work_wait s.mem = some (m', pc') ∧
      Inv { s with mem := m', workers := s.workers.set i pc' } ∧
      enqueuedTasks m'.log = enqueuedTasks s.mem.log ∧
      m'.tp.dont_accept = s.mem.tp.dont_accept ∧ m'.tp.shutdown = s.mem.tp.shutdown := by
  obtain ⟨⟨nodes, hq⟩, hf⟩ := hinv
  by_cases h1 : s.mem.tp.qsize = 0 ∧ s.mem.tp.shutdown = 0
  · refine ⟨s.mem, .waiting, by simp [VirusScanner.do_work_wait, h1], ⟨⟨nodes, ?_⟩, ?_⟩,
      rfl, rfl, rfl⟩
    · exact hq.idle .waiting hi hpc rfl (by simp)
    · exact hf.worker .waiting s.mem hi hne rfl rfl rfl (fun h => (hf.shut h).2)
        (fun h => by cases h)
  · by_cases h2 : s.mem.tp.shutdown ≠ 0
    · refine ⟨s.mem, .exited, by simp [VirusScanner.do_work_wait, h1, h2], ⟨⟨nodes, ?_⟩, ?_⟩,
        rfl, rfl, rfl⟩
      · exact hq.idle .exited hi hpc rfl (by simp)
      · exact hf.worker .exited s.mem hi hne rfl rfl rfl (fun h => (hf.shut h).2)
          (fun _ => hf.shutdown01.resolve_left h2)
    · have h2' : s.mem.tp.shutdown = 0 := not_not.1 h2
      have h3 : s.mem.tp.qsize ≠ 0 := fun h => h1 ⟨h, h2'⟩
      obtain ⟨d, w, qt, rest, hw, hdq, hq'⟩ := hq.take hi hpc h3
      refine ⟨_, .running (some d), ?_, ⟨⟨rest, hq'⟩, ?_⟩, ?_, rfl, rfl⟩
      · simp [VirusScanner.do_work_wait, h2', h3, hdq, hw]
      · refine hf.worker _ _ hi hne rfl rfl rfl ?_ (fun h => by cases h)
        intro h
        rw [h2'] at h
        cases h
      · show enqueuedTasks (s.mem.log ++ [Event.dequeued (w.routine, w.arg)])
          = enqueuedTasks s.mem.log
        rw [enqueuedTasks_append]; simp [enqueuedTasks]

/-- A step of a worker never runs into undefined behaviour, keeps the invariant,
and enqueues nothing. -/
theorem Inv.stepWorker {s : System} (hinv : Inv s) (i : Nat) :
    VirusScanner.stepWorker s i = .disabled ∨
    ∃ s', VirusScanner.stepWorker s i = .next s' ∧ Inv s' ∧
      enqueuedTasks s'.mem.log = enqueuedTasks s.mem.log ∧
      s'.destroyer = s.destroyer ∧
      s'.mem.tp.dont_accept = s.mem.tp.dont_accept ∧
      s'.mem.tp.shutdown = s.mem.tp.shutdown := by
  cases hi : s.workers.get? i with
  | none =>
    have hi' : s.workers[i]? = none := by simpa using hi
    left; simp [VirusScanner.stepWorker, hi']
  | some pc =>
    have hi' : s.workers[i]? = some pc := by simpa using hi
    cases pc with
    | exited => left; simp [VirusScanner.stepWorker, hi']
    | top =>
      right
      by_cases hsd : s.mem.tp.shutdown ≠ 0
      · refine ⟨{ s with workers := s.workers.set i .exited }, ?_, ?_, rfl, rfl, rfl, rfl⟩
        · simp [VirusScanner.stepWorker, hi', do_work_lock, hsd]
        · obtain ⟨⟨nodes, hq⟩, hf⟩ := hinv
          exact ⟨⟨nodes, hq.idle .exited hi rfl rfl (by simp)⟩,
            hf.worker .exited s.mem hi (by simp) rfl rfl rfl (fun h => (hf.shut h).2)
              (fun _ => hf.shutdown01.resolve_left hsd)⟩
      · obtain ⟨m', pc', hw, hinv', he, hda, hsh⟩ :=
          hinv.do_work_wait hi rfl (by simp)
        refine ⟨_, ?_, hinv', he, rfl, hda, hsh⟩
        simp [VirusScanner.stepWorker, hi', do_work_lock, hsd, hw]
    | waiting =>
      right
      obtain ⟨m', pc', hw, hinv', he, hda, hsh⟩ :=
        hinv.do_work_wait hi rfl (by simp)
      refine ⟨_, ?_, hinv', he, rfl, hda, hsh⟩
      simp [VirusScanner.stepWorker, hi', hw]
    | running to_do =>
      right
      obtain ⟨⟨nodes, hq⟩, hf⟩ := hinv
      obtain ⟨a, w, hto, hw, hq'⟩ := hq.after_run hi
      subst hto
      refine ⟨{ s with
          mem := { s.mem with heap := s.mem.heap.free a
                              log := s.mem.log ++ [.called (w.routine, w.arg)] }
          workers := s.workers.set i .top }, ?_, ⟨⟨nodes, hq'⟩, ?_⟩, ?_, rfl, rfl, rfl⟩
      · simp [VirusScanner.stepWorker, hi', do_work_run, hw]
      · exact hf.worker _ _ hi (by simp) rfl rfl rfl (fun h => (hf.shut h).2)
          (fun h => by cases h)
      · show enqueuedTasks (s.mem.log ++ [Event.called (w.routine, w.arg)])
          = enqueuedTasks s.mem.log
        rw [enqueuedTasks_append]; simp [enqueuedTasks]

/-- The invariant of the queue does not read the flags. -/
theorem QueueOk.flags {m : Shared} {ws : List WorkerPc} {nodes : List Nat}
    (h : QueueOk m ws nodes) (m' : Shared) (hheap : m'.heap = m.heap) (hlog : m'.log = m.log)
    (hhead : m'.tp.qhead = m.tp.qhead) (htail : m'.tp.qtail = m.tp.qtail)
    (hsize : m'.tp.qsize = m.tp.qsize) : QueueOk m' ws nodes := by
  refine ⟨?_, ?_, ?_, h.nodup, ?_, h.noNull, ?_, ?_⟩
  · rw [hheap, hhead]; exact h.chain
  · rw [htail]; exact h.tail
  · rw [hsize]; exact h.size
  · rw [hheap]; exact h.live
  · rw [hheap, hlog]; exact h.enq
  · rw [hheap, hlog]; exact h.deq

/-- The test of the `while` of `destroy_threadpool` keeps the invariant, once
`dont_accept` is set. -/
theorem Inv.destroy_wait {s : System} (m : Shared) (nodes : List Nat)
    (hq : QueueOk m s.workers nodes)
    (hda : m.tp.dont_accept = 1) (h01 : m.tp.shutdown = 0 ∨ m.tp.shutdown = 1)
    (hshut : m.tp.shutdown = 1 → m.tp.qsize = 0)
    (hthreads : s.workers.length = m.tp.num_threads)
    (hexit : WorkerPc.exited ∈ s.workers → m.tp.shutdown = 1) :
    Inv { s with mem := (VirusScanner.destroy_wait m).1,
                 destroyer := (VirusScanner.destroy_wait m).2 } ∧
    (VirusScanner.destroy_wait m).1.log = m.log ∧
    (VirusScanner.destroy_wait m).1.tp.dont_accept = 1 ∧
    (m.tp.shutdown = 1 → (VirusScanner.destroy_wait m).1.tp.shutdown = 1) := by
  by_cases hpos : m.tp.qsize > 0
  · have heq : VirusScanner.destroy_wait m = (m, .draining) := by
      simp [VirusScanner.destroy_wait, hpos]
    rw [heq]
    refine ⟨⟨⟨nodes, hq⟩, ?_⟩, rfl, hda, fun h => h⟩
    refine ⟨Or.inr hda, h01, fun h => ⟨hda, hshut h⟩, hthreads, ?_, fun _ => hda, ?_, ?_,
      hexit⟩
    · intro h; cases h
    · intro i h; cases h
    · intro h; cases h
  · have heq : VirusScanner.destroy_wait m
        = ({ m with tp := { m.tp with shutdown := 1 } }, .joining 0) := by
      simp [VirusScanner.destroy_wait, hpos]
    rw [heq]
    have hzero : m.tp.qsize = 0 := by
      have := hq.size
      omega
    refine ⟨⟨⟨nodes, hq.flags _ rfl rfl rfl rfl rfl⟩, ?_⟩, rfl, hda, fun _ => rfl⟩
    refine ⟨Or.inr hda, Or.inr rfl, fun _ => ⟨hda, hzero⟩, hthreads, ?_, ?_, ?_, ?_,
      fun _ => rfl⟩
    · intro h; cases h
    · intro h; cases h
    · intro i h
      cases h
      exact ⟨rfl, fun j hj => absurd hj (Nat.not_lt_zero j)⟩
    · intro h; cases h

/-- A step of `destroy_threadpool` keeps the invariant, enqueues nothing and
never clears a flag. -/
theorem Inv.stepDestroy {s : System} (hinv : Inv s) :
    VirusScanner.stepDestroy s = .disabled ∨
    ∃ s', VirusScanner.stepDestroy s = .next s' ∧ Inv s' ∧
      enqueuedTasks s'.mem.log = enqueuedTasks s.mem.log ∧
      s'.mem.tp.dont_accept = 1 ∧
      (s.mem.tp.shutdown = 1 → s'.mem.tp.shutdown = 1) := by
  obtain ⟨⟨nodes, hq⟩, hf⟩ := hinv
  cases hd : s.destroyer with
  | notCalled =>
    right
    have hq1 : QueueOk { s.mem with tp := { s.mem.tp with dont_accept := 1 } } s.workers nodes :=
      hq.flags _ rfl rfl rfl rfl rfl
    obtain ⟨h1, h2, h3, h4⟩ := Inv.destroy_wait (s := s) _ nodes hq1 rfl hf.shutdown01
      (fun h => (hf.shut h).2) hf.threads hf.exited
    refine ⟨_, ?_, h1, by rw [h2], h3, h4⟩
    simp [VirusScanner.stepDestroy, hd, destroy_lock]
  | draining =>
    right
    obtain ⟨h1, h2, h3, h4⟩ := Inv.destroy_wait (s := s) s.mem nodes hq (hf.draining hd)
      hf.shutdown01 (fun h => (hf.shut h).2) hf.threads hf.exited
    refine ⟨_, ?_, h1, by rw [h2], h3, h4⟩
    simp [VirusScanner.stepDestroy, hd]
  | joining i =>
    obtain ⟨hs1, hex⟩ := hf.joining i hd
    have hda : s.mem.tp.dont_accept = 1 := (hf.shut hs1).1
    by_cases hi : i < s.mem.tp.num_threads
    · by_cases hw : s.workers.get? i = some .exited
      · right
        have hw' : s.workers[i]? = some .exited := by simpa using hw
        refine ⟨{ s with destroyer := .joining (i + 1) }, ?_, ⟨⟨nodes, hq⟩, ?_⟩, rfl, hda,
          fun h => h⟩
        · simp [VirusScanner.stepDestroy, hd, hi, hw']
        · refine ⟨hf.accept01, hf.shutdown01, hf.shut, hf.threads, ?_, ?_, ?_, ?_, hf.exited⟩
          · intro h; cases h
          · intro h; cases h
          · intro k hk
            cases hk
            refine ⟨hs1, fun j hj => ?_⟩
            rcases Nat.lt_succ_iff_lt_or_eq.1 hj with hlt | rfl
            · exact hex j hlt
            · exact hw
          · intro h; cases h
      · left
        have hw' : ¬ s.workers[i]? = some .exited := by simpa using hw
        simp [VirusScanner.stepDestroy, hd, hi, hw']
    · right
      refine ⟨{ s with destroyer := .destroyed }, ?_, ⟨⟨nodes, hq⟩, ?_⟩, rfl, hda, fun h => h⟩
      · simp [VirusScanner.stepDestroy, hd, hi]
      · refine ⟨hf.accept01, hf.shutdown01, hf.shut, hf.threads, ?_, ?_, ?_, ?_, hf.exited⟩
        · intro h; cases h
        · intro h; cases h
        · intro k hk; cases hk
        · intro _
          refine ⟨hs1, fun pc hpc => ?_⟩
          obtain ⟨j, hj⟩ := List.mem_iff_getElem?.1 hpc
          have hjlen : j < s.workers.length := by
            by_contra hcon
            rw [List.getElem?_eq_none (Nat.le_of_not_lt hcon)] at hj
            cases hj
          have hji : j < i := by
            have := hf.threads
            omega
          have := hex j hji
          rw [List.get?_eq_getElem?, hj] at this
          exact Option.some.inj this
  | destroyed =>
    left
    simp [VirusScanner.stepDestroy, hd]

/-- A call of `dispatch` never runs into undefined behaviour and keeps the
invariant; it records the task as enqueued exactly when the pool accepts. -/
theorem Inv.stepDispatch {s : System} (hinv : Inv s) (a f x : Nat) :
    step s (.dispatch a f x) = .disabled ∨
    ∃ s', step s (.dispatch a f x) = .next s' ∧ Inv s' ∧
      enqueuedTasks s'.mem.log
        = enqueuedTasks s.mem.log ++ (if s.mem.tp.dont_accept = 0 then [(f, x)] else []) ∧
      s'.destroyer = s.destroyer ∧
      s'.mem.tp.dont_accept = s.mem.tp.dont_accept ∧
      s'.mem.tp.shutdown = s.mem.tp.shutdown ∧
      s'.mem.tp.num_threads = s.mem.tp.num_threads := by
  by_cases hdis : s.destroyer = .destroyed ∨ s.mem.heap.get a ≠ none
  · left
    simp [step, hdis]
  · right
    have hfresh : s.mem.heap.get a = none := by
      by_contra hcon
      exact hdis (Or.inr hcon)
    obtain ⟨⟨nodes, hq⟩, hf⟩ := hinv
    by_cases hacc : s.mem.tp.dont_accept = 0
    · obtain ⟨heap, qh, qt, hd, hq'⟩ := hq.dispatch a f x hfresh hacc
      refine ⟨{ s with mem := _ }, ?_, ⟨⟨_, hq'⟩, ?_⟩, ?_, rfl, rfl, rfl, rfl⟩
      · simp [step, hdis, hd]
      · refine ⟨hf.accept01, hf.shutdown01, ?_, hf.threads, hf.notCalled, hf.draining,
          hf.joining, hf.destroyed, hf.exited⟩
        intro h
        have := (hf.shut h).1
        rw [hacc] at this
        cases this
      · show enqueuedTasks (s.mem.log ++ [Event.enqueued (f, x)]) = _
        rw [enqueuedTasks_append, if_pos hacc]
        rfl
    · have hd : dispatch s.mem a f x = some s.mem := by
        rw [dispatch_of_dont_accept s.mem a f x hacc, Heap.free_set_fresh s.mem.heap a _ hfresh]
      refine ⟨s, ?_, ⟨⟨nodes, hq⟩, hf⟩, ?_, rfl, rfl, rfl, rfl⟩
      · simp [step, hdis, hd]
      · simp [hacc]

/-! ## Theorems: every schedule keeps the invariant -/

theorem Inv.create (n : Nat) : Inv (create_threadpool n) := by
  have hheld : held (List.replicate n WorkerPc.top) = [] := by
    induction n with
    | zero => rfl
    | succ k ih => simp [List.replicate_succ, held_cons, WorkerPc.holds, ih]
  refine ⟨⟨[], ?_⟩, ?_⟩
  · refine ⟨rfl, rfl, rfl, ?_, ?_, ?_, rfl, ?_⟩
    · show ([] ++ held (List.replicate n WorkerPc.top)).Nodup
      rw [hheld]; exact List.nodup_nil
    · show ∀ a ∈ held (List.replicate n WorkerPc.top), _
      rw [hheld]; intro a ha; cases ha
    · show WorkerPc.running none ∉ List.replicate n WorkerPc.top
      intro h
      have := List.eq_of_mem_replicate h
      cases this
    · show List.Perm [] ([] ++ (held (List.replicate n WorkerPc.top)).filterMap _)
      rw [hheld]; exact List.Perm.refl _
  · refine ⟨Or.inl rfl, Or.inl rfl, ?_, ?_, fun _ => rfl, ?_, ?_, ?_, ?_⟩
    · intro h; cases h
    · show (List.replicate n WorkerPc.top).length = n
      simp
    · intro h; cases h
    · intro i h; cases h
    · intro h; cases h
    · intro h
      have := List.eq_of_mem_replicate h
      cases this

/-- What one scheduling step can do to a pool that satisfies the invariant. -/
theorem Inv.step {s : System} (hinv : Inv s) (a : Action) :
    VirusScanner.step s a = .disabled ∨
    ∃ s', VirusScanner.step s a = .next s' ∧ Inv s' ∧
      (s.mem.tp.dont_accept = 1 → s'.mem.tp.dont_accept = 1) ∧
      (s.mem.tp.shutdown = 1 → s'.mem.tp.shutdown = 1) := by
  cases a with
  | dispatch w f x =>
    rcases hinv.stepDispatch w f x with h | ⟨s', h1, h2, _, _, h3, h4, _⟩
    · exact Or.inl h
    · exact Or.inr ⟨s', h1, h2, fun h => h3.trans h, fun h => h4.trans h⟩
  | work i =>
    rcases hinv.stepWorker i with h | ⟨s', h1, h2, _, _, h3, h4⟩
    · exact Or.inl h
    · exact Or.inr ⟨s', h1, h2, fun h => h3.trans h, fun h => h4.trans h⟩
  | destroy =>
    rcases hinv.stepDestroy with h | ⟨s', h1, h2, _, h3, h4⟩
    · exact Or.inl h
    · exact Or.inr ⟨s', h1, h2, fun _ => h3, h4⟩

theorem run_cons_next {s s1 : System} {a : Action} {rest : List Action}
    (h : VirusScanner.step s a = .next s1) : run s (a :: rest) = run s1 rest := by
  simp [run, h]

theorem run_cons_disabled {s : System} {a : Action} {rest : List Action}
    (h : VirusScanner.step s a = .disabled) : run s (a :: rest) = .disabled := by
  simp [run, h]

/-- Every schedule keeps the invariant. -/
theorem Inv.after_schedule {sched : List Action} :
    ∀ {s s' : System}, Inv s → VirusScanner.run s sched = .next s' → Inv s' := by
  induction sched with
  | nil =>
    intro s s' hinv h
    simp only [VirusScanner.run, Step.next.injEq] at h
    exact h ▸ hinv
  | cons a rest ih =>
    intro s s' hinv h
    rcases hinv.step a with hd | ⟨s1, h1, hinv1, _, _⟩
    · rw [run_cons_disabled hd] at h
      cases h
    · rw [run_cons_next h1] at h
      exact ih hinv1 h

/-- No schedule runs into undefined behaviour: `enqueue` and `dequeue` never
follow a dangling pointer and a worker never calls through `NULL`. -/
theorem run_never_faults (n : Nat) (sched : List Action) :
    run (create_threadpool n) sched ≠ .fault := by
  have key : ∀ (sched : List Action) (s : System), Inv s → run s sched ≠ .fault := by
    intro sched
    induction sched with
    | nil => intro s _ h; simp [run] at h
    | cons a rest ih =>
      intro s hinv h
      rcases hinv.step a with hd | ⟨s1, h1, hinv1, _, _⟩
      · rw [run_cons_disabled hd] at h
        cases h
      · rw [run_cons_next h1] at h
        exact ih s1 hinv1 h
  exact key sched _ (Inv.create n)

theorem run_append (pre post : List Action) :
    ∀ (s s' : System), run s (pre ++ post) = .next s' →
      ∃ s1, run s pre = .next s1 ∧ run s1 post = .next s' := by
  induction pre with
  | nil => intro s s' h; exact ⟨s, rfl, h⟩
  | cons a rest ih =>
    intro s s' h
    cases hstep : VirusScanner.step s a with
    | next s1 =>
      rw [List.cons_append, run_cons_next hstep] at h
      obtain ⟨s2, h2, h3⟩ := ih s1 s' h
      exact ⟨s2, by rw [run_cons_next hstep]; exact h2, h3⟩
    | disabled =>
      rw [List.cons_append, run_cons_disabled hstep] at h
      cases h
    | fault =>
      simp [run, hstep] at h

/-- While `destroy_threadpool` has not been called, every task handed to
`dispatch` is enqueued. -/
theorem enqueued_before_destroy {pre : List Action} :
    ∀ {s s1 : System}, Inv s → s.destroyer = .notCalled →
      (∀ a ∈ pre, a ≠ Action.destroy) → run s pre = .next s1 →
      s1.destroyer = .notCalled ∧
      enqueuedTasks s1.mem.log = enqueuedTasks s.mem.log ++ dispatchedTasks pre := by
  induction pre with
  | nil =>
    intro s s1 _ hd _ h
    simp only [run, Step.next.injEq] at h
    subst h
    exact ⟨hd, by simp [dispatchedTasks]⟩
  | cons a rest ih =>
    intro s s1 hinv hd hpre h
    have hrest : ∀ b ∈ rest, b ≠ Action.destroy :=
      fun b hb => hpre b (List.mem_cons_of_mem _ hb)
    cases a with
    | dispatch w f x =>
      rcases hinv.stepDispatch w f x with hdis | ⟨s2, h1, hinv2, he, hd2, _, _⟩
      · rw [run_cons_disabled hdis] at h
        cases h
      · rw [run_cons_next h1] at h
        obtain ⟨h3, h4⟩ := ih hinv2 (hd2.trans hd) hrest h
        refine ⟨h3, ?_⟩
        rw [h4, he, if_pos (hinv.2.notCalled hd)]
        simp [dispatchedTasks]
    | work i =>
      rcases hinv.stepWorker i with hdis | ⟨s2, h1, hinv2, he, hd2, _, _⟩
      · have hdis' : VirusScanner.step s (.work i) = .disabled := hdis
        rw [run_cons_disabled hdis'] at h
        cases h
      · have h1' : VirusScanner.step s (.work i) = .next s2 := h1
        rw [run_cons_next h1'] at h
        obtain ⟨h3, h4⟩ := ih hinv2 (hd2.trans hd) hrest h
        refine ⟨h3, ?_⟩
        rw [h4, he]
        simp [dispatchedTasks]
    | destroy => exact absurd rfl (hpre _ (List.mem_cons_self _ _))

/-- Steps other than calls of `dispatch` enqueue nothing. -/
theorem enqueued_without_dispatch {post : List Action} :
    ∀ {s s1 : System}, Inv s →
      (∀ a ∈ post, a.isDispatch = false) → run s post = .next s1 →
      enqueuedTasks s1.mem.log = enqueuedTasks s.mem.log := by
  induction post with
  | nil =>
    intro s s1 _ _ h
    simp only [run, Step.next.injEq] at h
    subst h
    rfl
  | cons a rest ih =>
    intro s s1 hinv hpost h
    have hrest : ∀ b ∈ rest, b.isDispatch = false :=
      fun b hb => hpost b (List.mem_cons_of_mem _ hb)
    cases a with
    | dispatch w f x =>
      have := hpost _ (List.mem_cons_self _ _)
      cases this
    | work i =>
      rcases hinv.stepWorker i with hdis | ⟨s2, h1, hinv2, he, _, _, _⟩
      · have hdis' : VirusScanner.step s (.work i) = .disabled := hdis
        rw [run_cons_disabled hdis'] at h
        cases h
      · have h1' : VirusScanner.step s (.work i) = .next s2 := h1
        rw [run_cons_next h1'] at h
        rw [ih hinv2 hrest h, he]
    | destroy =>
      rcases hinv.stepDestroy with hdis | ⟨s2, h1, hinv2, he, _, _⟩
      · have hdis' : VirusScanner.step s .destroy = .disabled := hdis
        rw [run_cons_disabled hdis'] at h
        cases h
      · have h1' : VirusScanner.step s .destroy = .next s2 := h1
        rw [run_cons_next h1'] at h
        rw [ih hinv2 hrest h, he]

theorem held_of_all_exited {ws : List WorkerPc} (h : ∀ pc ∈ ws, pc = WorkerPc.exited) :
    held ws = [] := by
  induction ws with
  | nil => rfl
  | cons q rest ih =>
    rw [held_cons, ih (fun pc hpc => h pc (List.mem_cons_of_mem _ hpc)),
      h q (List.mem_cons_self _ _)]
    rfl

/-- Once `destroy_threadpool` has returned, the routines called are the tasks
enqueued, each once. -/
theorem Inv.called_of_destroyed {s : System} (hinv : Inv s) (hd : s.destroyer = .destroyed) :
    (calledTasks s.mem.log).Perm (enqueuedTasks s.mem.log) := by
  obtain ⟨⟨nodes, hq⟩, hf⟩ := hinv
  obtain ⟨hs, hex⟩ := hf.destroyed hd
  have hnil : nodes = [] := by
    have h0 := (hf.shut hs).2
    have := hq.size
    rw [h0] at this
    cases nodes with
    | nil => rfl
    | cons b rest => simp at this; omega
  have hdeq := hq.deq
  have henq := hq.enq
  rw [held_of_all_exited hex] at hdeq
  rw [hnil] at henq
  simp only [List.filterMap_nil, List.append_nil] at hdeq henq
  rw [henq]
  exact hdeq.symm

/-! ## Theorems: the pool -/

/-- Safety of the shutdown: when the calls of `dispatch` all come before
`destroy_threadpool` is called, in a state where `destroy_threadpool` has
returned the routines called are the tasks submitted, each once. -/
theorem called_when_returned (n : Nat) (pre post : List Action) (s : System)
    (hpre : ∀ a ∈ pre, a ≠ Action.destroy)
    (hpost : ∀ a ∈ post, a.isDispatch = false)
    (hrun : run (create_threadpool n) (pre ++ post) = .next s)
    (hdone : s.destroyer = .destroyed) :
    (calledTasks s.mem.log).Perm (dispatchedTasks pre) ∧
    (calledTasks s.mem.log).length = (dispatchedTasks pre).length := by
  obtain ⟨s1, h1, h2⟩ := run_append pre post _ _ hrun
  have hinv0 := Inv.create n
  have hinv1 : Inv s1 := hinv0.after_schedule h1
  have hinv : Inv s := hinv1.after_schedule h2
  have e1 := (enqueued_before_destroy hinv0 rfl hpre h1).2
  have e2 := enqueued_without_dispatch hinv1 hpost h2
  have hperm := hinv.called_of_destroyed hdone
  have henq : enqueuedTasks s.mem.log = dispatchedTasks pre := by
    rw [e2, e1]
    rfl
  rw [henq] at hperm
  exact ⟨hperm, hperm.length_eq⟩

/-- C7: from the empty queue of `create_threadpool`, after every schedule the
tasks enqueued are the tasks dequeued so far, in the same order, followed by the
tasks of the work items linked from `qhead`; so what `dequeue` returned is a
prefix of what was enqueued. And while `destroy_threadpool` has not been called,
the tasks enqueued are the tasks handed to `dispatch`, in order. -/
theorem queue_is_fifo (n : Nat) (sched : List Action) (s : System)
    (hrun : run (create_threadpool n) sched = .next s) :
    enqueuedTasks s.mem.log
      = dequeuedTasks s.mem.log ++ queuedTasks s.mem.heap s.mem.tp.qsize.toNat s.mem.tp.qhead ∧
    dequeuedTasks s.mem.log <+: enqueuedTasks s.mem.log ∧
    ((∀ a ∈ sched, a ≠ Action.destroy) → enqueuedTasks s.mem.log = dispatchedTasks sched) := by
  have hinv0 := Inv.create n
  obtain ⟨⟨nodes, hq⟩, _⟩ := hinv0.after_schedule hrun
  have hwalk : queuedTasks s.mem.heap s.mem.tp.qsize.toNat s.mem.tp.qhead
      = nodes.filterMap (taskAt s.mem.heap) := by
    rw [hq.size, Int.toNat_ofNat]
    exact queuedTasks_of_chain hq.chain
  refine ⟨?_, ?_, ?_⟩
  · rw [hwalk]; exact hq.enq
  · rw [hq.enq]; exact List.prefix_append _ _
  · intro hpre
    have := (enqueued_before_destroy hinv0 rfl hpre hrun).2
    rw [this]
    rfl

/-- C7, witness: three tasks are enqueued while two workers dequeue; the two
tasks dequeued are the first two enqueued and the third is still queued. -/
theorem queue_is_fifo_witness :
    enqueuedTasks (stateAfter 2
        [.dispatch 5 1 10, .dispatch 6 2 20, .work 0, .dispatch 7 3 30, .work 1]).mem.log
      = [(1, 10), (2, 20), (3, 30)] ∧
    dequeuedTasks (stateAfter 2
        [.dispatch 5 1 10, .dispatch 6 2 20, .work 0, .dispatch 7 3 30, .work 1]).mem.log
      = [(1, 10), (2, 20)] ∧
    dequeuedTasks (stateAfter 2
        [.dispatch 5 1 10, .dispatch 6 2 20, .work 0, .dispatch 7 3 30, .work 1]).mem.log
      <+: enqueuedTasks (stateAfter 2
        [.dispatch 5 1 10, .dispatch 6 2 20, .work 0, .dispatch 7 3 30, .work 1]).mem.log :=
  ⟨by decide, by decide,
   (queue_is_fifo 2 [.dispatch 5 1 10, .dispatch 6 2 20, .work 0, .dispatch 7 3 30, .work 1]
      _ (by decide)).2.1⟩

/-- C8: in every state reachable from `create_threadpool`, the flag `shutdown` is
0 or 1, and when it is 1 then `dont_accept` is 1, `qsize` is 0 and `qhead` and
`qtail` are `NULL`; and no step clears `dont_accept` or `shutdown`, so the phase
of the pool never goes back. -/
theorem shutdown_only_after_drain (n : Nat) (sched : List Action) (s : System)
    (hrun : run (create_threadpool n) sched = .next s) :
    (s.mem.tp.shutdown = 0 ∨ s.mem.tp.shutdown = 1) ∧
    (s.mem.tp.shutdown = 1 →
      s.mem.tp.dont_accept = 1 ∧ s.mem.tp.qsize = 0 ∧
      s.mem.tp.qhead = none ∧ s.mem.tp.qtail = none) ∧
    (∀ a s', step s a = .next s' →
      (s.mem.tp.dont_accept = 1 → s'.mem.tp.dont_accept = 1) ∧
      (s.mem.tp.shutdown = 1 → s'.mem.tp.shutdown = 1) ∧
      phase s.mem.tp ≤ phase s'.mem.tp) := by
  have hinv : Inv s := (Inv.create n).after_schedule hrun
  obtain ⟨⟨nodes, hq⟩, hf⟩ := hinv
  refine ⟨hf.shutdown01, ?_, ?_⟩
  · intro hs
    obtain ⟨hda, h0⟩ := hf.shut hs
    have hnil : nodes = [] := by
      have := hq.size
      rw [h0] at this
      cases nodes with
      | nil => rfl
      | cons b rest => simp at this; omega
    subst hnil
    exact ⟨hda, h0, hq.chain, hq.tail⟩
  · intro a s' hstep
    rcases Inv.step ⟨⟨nodes, hq⟩, hf⟩ a with hd | ⟨s2, h1, hinv2, hm1, hm2⟩
    · rw [hd] at hstep
      cases hstep
    · rw [h1] at hstep
      cases hstep
      refine ⟨hm1, hm2, ?_⟩
      have hf2 := hinv2.2
      rcases hf.shutdown01 with hs0 | hs1
      · rcases hf.accept01 with ha0 | ha1
        · simp [phase, hs0, ha0]
        · have ha2 := hm1 ha1
          rcases hf2.shutdown01 with hs20 | hs21
          · simp [phase, hs0, ha1, hs20, ha2]
          · simp [phase, hs0, ha1, hs21]
      · have hs2 := hm2 hs1
        simp [phase, hs1, hs2]

/-- C8, witness: after the tasks are done and `destroy_threadpool` has set
`shutdown`, the pool is not accepting and the queue is empty. -/
theorem shutdown_only_after_drain_witness :
    (stateAfter 1 [.dispatch 5 1 10, .destroy, .work 0, .work 0, .destroy]).mem.tp.shutdown = 1 ∧
    (stateAfter 1 [.dispatch 5 1 10, .destroy, .work 0, .work 0, .destroy]).mem.tp.dont_accept
      = 1 ∧
    (stateAfter 1 [.dispatch 5 1 10, .destroy, .work 0, .work 0, .destroy]).mem.tp.qsize = 0 :=
  ⟨by decide,
   ((shutdown_only_after_drain 1 [.dispatch 5 1 10, .destroy, .work 0, .work 0, .destroy]
      _ (by decide)).2.1 (by decide)).1,
   ((shutdown_only_after_drain 1 [.dispatch 5 1 10, .destroy, .work 0, .work 0, .destroy]
      _ (by decide)).2.1 (by decide)).2.1⟩

/-! ## Theorems: the loop of `Contains` ends -/

/-- A `read` that extracts something brings a stream that has not failed closer
to its end. -/
theorem ifstream.read_progress (s : ifstream) (n : Nat) (hn : 1 ≤ n)
    (hg : (s.read n).2.gcount ≠ 0) :
    (if (s.read n).2.fail then 1 else (s.read n).2.pending.length + 1) + 1
      ≤ s.pending.length + 1 := by
  have key : ∀ budget : Option Nat, min n s.pending.length ≠ 0 →
      (if (ifstream.mk (s.pending.drop n) budget (min n s.pending.length != n)
            (min n s.pending.length != n) false (min n s.pending.length)).fail then 1
        else (s.pending.drop n).length + 1) + 1 ≤ s.pending.length + 1 := by
    intro budget h0
    by_cases hshort : min n s.pending.length = n
    · simp [ifstream.fail, hshort]
      omega
    · simp [ifstream.fail, hshort]
      omega
  by_cases hgood : s.good = true
  · cases hb : s.goodReads with
    | none =>
      simp only [ifstream.read, hgood, hb, Bool.not_true, Bool.false_eq_true, if_false,
        List.length_take] at hg ⊢
      exact key _ hg
    | some k =>
      cases k with
      | zero => simp [ifstream.read, hgood, hb] at hg
      | succ k =>
        simp only [ifstream.read, hgood, hb, Bool.not_true, Bool.false_eq_true, if_false,
          List.length_take] at hg ⊢
        exact key _ hg
  · simp [ifstream.read, hgood] at hg

/-- The fuel `Contains` hands to its loop is enough: the loop never stops for
lack of it. -/
theorem ContainsLoop_fuel (pattern_ : List Byte) :
    ∀ (fuel : Nat) (rp : Option Nat) (buffer : List Byte) (file : ifstream)
      (acc : List (List Byte)),
      (if file.fail then 1 else file.pending.length + 1) ≤ fuel →
      (ContainsLoop pattern_ fuel rp buffer file acc).result ≠ .undefined .outOfFuel := by
  intro fuel
  induction fuel with
  | zero =>
    intro rp buffer file acc h
    split at h <;> omega
  | succ k ih =>
    intro rp buffer file acc h
    rw [ContainsLoop]
    by_cases hfail : file.fail = true
    · simp [hfail]
    · simp only [hfail, Bool.false_eq_true, if_false] at h ⊢
      have hprog := ifstream.read_progress file BUFFER_SIZE (by decide)
      cases hr : file.read BUFFER_SIZE with
      | mk got file' =>
        rw [hr] at hprog
        simp only at hprog ⊢
        split
        · simp
        · repeat' split
          all_goals first
            | (apply ih
               rename_i hne _ _ _
               have := hprog hne
               omega)
            | simp

/-- Whatever the first value of `read_pointer`, a run of the loop of `Contains`
ends by returning or by running into undefined behaviour of the program, never
for lack of fuel. -/
theorem ContainsFrom_fuel (read_pointer : Option Nat) (pattern_ : List Byte) (file : ifstream) :
    (ContainsFrom read_pointer pattern_ file).result ≠ .undefined .outOfFuel := by
  unfold ContainsFrom
  apply ContainsLoop_fuel
  split <;> omega

/-- On an empty file `Contains` returns false. -/
theorem Contains_of_empty (pattern_ : List Byte) (budget : Option Nat) :
    Contains pattern_ (ifstream.open ⟨true, [], budget⟩) = .returned false := by
  cases budget with
  | none =>
    simp [Contains, ContainsRun.of, ContainsFrom, ifstream.open, ContainsLoop, ifstream.fail,
      ifstream.read, ifstream.good, BUFFER_SIZE]
  | some k =>
    cases k with
    | zero =>
      simp [Contains, ContainsRun.of, ContainsFrom, ifstream.open, ContainsLoop, ifstream.fail,
        ifstream.read, ifstream.good, BUFFER_SIZE]
    | succ k =>
      simp [Contains, ContainsRun.of, ContainsFrom, ifstream.open, ContainsLoop, ifstream.fail,
        ifstream.read, ifstream.good, BUFFER_SIZE]

/-! ## Theorems: `destroy_threadpool` can always return -/

theorem Inv.next {s s' : System} {a : Action} (hinv : Inv s)
    (h : VirusScanner.step s a = .next s') : Inv s' := by
  rcases hinv.step a with hd | ⟨s1, h1, hinv1, _, _⟩
  · rw [hd] at h; cases h
  · rw [h1] at h; cases h; exact hinv1

theorem weight_set {ws : List WorkerPc} {i : Nat} {pc : WorkerPc} (pc' : WorkerPc)
    (hi : ws.get? i = some pc) :
    ((ws.set i pc').map WorkerPc.weight).sum + pc.weight
      = (ws.map WorkerPc.weight).sum + pc'.weight := by
  obtain ⟨l, r, hws, _, hset⟩ := workers_split hi
  rw [hset pc', hws]
  simp only [List.map_append, List.map_cons, List.sum_append, List.sum_cons]
  omega

/-- A worker that holds a work item can take its step. -/
theorem Inv.worker_runs {s : System} (hinv : Inv s) {i : Nat} {to_do : Option Nat}
    (hi : s.workers.get? i = some (.running to_do)) :
    ∃ s', VirusScanner.step s (.work i) = .next s' ∧ s'.workers = s.workers.set i .top ∧
      s'.mem.tp = s.mem.tp ∧ s'.destroyer = s.destroyer := by
  obtain ⟨⟨nodes, hq⟩, _⟩ := hinv
  obtain ⟨a, w, hto, hw, _⟩ := hq.after_run hi
  subst hto
  have hi' : s.workers[i]? = some (.running (some a)) := by simpa using hi
  refine ⟨{ s with
      mem := { s.mem with heap := s.mem.heap.free a
                          log := s.mem.log ++ [.called (w.routine, w.arg)] }
      workers := s.workers.set i .top }, ?_, rfl, rfl, rfl⟩
  simp [VirusScanner.step, VirusScanner.stepWorker, hi', do_work_run, hw]

/-- A worker at the top of its loop or waiting takes a work item when the queue
is not empty and the pool is not shut down. -/
theorem Inv.worker_takes {s : System} (hinv : Inv s) {i : Nat} {pc : WorkerPc}
    (hi : s.workers.get? i = some pc) (hpc : pc = .top ∨ pc = .waiting)
    (hs : s.mem.tp.shutdown = 0) (hq0 : s.mem.tp.qsize ≠ 0) :
    ∃ s' d, VirusScanner.step s (.work i) = .next s' ∧
      s'.workers = s.workers.set i (.running d) ∧
      s'.mem.tp.qsize = s.mem.tp.qsize - 1 ∧ 0 < s.mem.tp.qsize ∧
      s'.mem.tp.num_threads = s.mem.tp.num_threads ∧ s'.destroyer = s.destroyer := by
  obtain ⟨⟨nodes, hq⟩, _⟩ := hinv
  have hholds : pc.holds = [] := by rcases hpc with rfl | rfl <;> rfl
  obtain ⟨d, w, qt, rest, hw, hdq, _⟩ := hq.take hi hholds hq0
  have hi' : s.workers[i]? = some pc := by simpa using hi
  have hpos : 0 < s.mem.tp.qsize := by
    have := hq.size
    omega
  refine ⟨{ s with
      mem := { s.mem with
        tp := { s.mem.tp with qhead := w.next, qtail := qt, qsize := s.mem.tp.qsize - 1 }
        log := s.mem.log ++ [.dequeued (w.routine, w.arg)] }
      workers := s.workers.set i (.running (some d)) }, some d, ?_, rfl, rfl, hpos, rfl, rfl⟩
  rcases hpc with rfl | rfl
  · simp [VirusScanner.step, VirusScanner.stepWorker, hi', do_work_lock,
      VirusScanner.do_work_wait, hs, hq0, hdq, hw]
  · simp [VirusScanner.step, VirusScanner.stepWorker, hi', VirusScanner.do_work_wait, hs, hq0,
      hdq, hw]

/-- A worker at the top of its loop or waiting exits once the pool is shut down. -/
theorem worker_exits {s : System} {i : Nat} {pc : WorkerPc}
    (hi : s.workers.get? i = some pc) (hpc : pc = .top ∨ pc = .waiting)
    (hs : s.mem.tp.shutdown ≠ 0) :
    VirusScanner.step s (.work i) = .next { s with workers := s.workers.set i .exited } := by
  have hi' : s.workers[i]? = some pc := by simpa using hi
  rcases hpc with rfl | rfl
  · simp [VirusScanner.step, VirusScanner.stepWorker, hi', do_work_lock, hs]
  · simp [VirusScanner.step, VirusScanner.stepWorker, hi', VirusScanner.do_work_wait, hs]

/-- Progress: as long as `destroy_threadpool` has not returned, a pool with at
least one thread has a step, not a call of `dispatch`, that brings the return
closer. -/
theorem Inv.progress {s : System} (hinv : Inv s) (hn : 1 ≤ s.mem.tp.num_threads)
    (hd : s.destroyer ≠ .destroyed) :
    ∃ a s', a.isDispatch = false ∧ VirusScanner.step s a = .next s' ∧
      s'.mem.tp.num_threads = s.mem.tp.num_threads ∧ stepsLeft s' < stepsLeft s := by
  have hinv' := hinv
  obtain ⟨⟨nodes, hq⟩, hf⟩ := hinv'
  by_cases hrun : ∃ i to_do, s.workers.get? i = some (.running to_do)
  · obtain ⟨i, to_do, hi⟩ := hrun
    obtain ⟨s', h1, h2, h3, h4⟩ := hinv.worker_runs hi
    refine ⟨.work i, s', rfl, h1, by rw [h3], ?_⟩
    have hw := weight_set .top hi
    simp only [stepsLeft, h2, h3, h4]
    simp only [WorkerPc.weight] at hw
    omega
  · have hnorun : ∀ i pc, s.workers.get? i = some pc → pc = .top ∨ pc = .waiting ∨ pc = .exited := by
      intro i pc hi
      cases pc with
      | running to_do => exact absurd ⟨i, to_do, hi⟩ hrun
      | top => exact Or.inl rfl
      | waiting => exact Or.inr (Or.inl rfl)
      | exited => exact Or.inr (Or.inr rfl)
    by_cases hq0 : s.mem.tp.qsize = 0
    · cases hdest : s.destroyer with
      | destroyed => exact absurd hdest hd
      | notCalled =>
        refine ⟨.destroy,
          { s with
            mem := { s.mem with tp := { s.mem.tp with dont_accept := 1, shutdown := 1 } }
            destroyer := .joining 0 }, rfl, ?_, rfl, ?_⟩
        · simp [VirusScanner.step, VirusScanner.stepDestroy, hdest, destroy_lock,
            VirusScanner.destroy_wait, hq0]
        · simp only [stepsLeft, hdest, DestroyPc.rank]
          omega
      | draining =>
        refine ⟨.destroy,
          { s with
            mem := { s.mem with tp := { s.mem.tp with shutdown := 1 } }
            destroyer := .joining 0 }, rfl, ?_, rfl, ?_⟩
        · simp [VirusScanner.step, VirusScanner.stepDestroy, hdest,
            VirusScanner.destroy_wait, hq0]
        · simp only [stepsLeft, hdest, DestroyPc.rank]
          omega
      | joining i =>
        obtain ⟨hs1, _⟩ := hf.joining i hdest
        by_cases hi : i < s.mem.tp.num_threads
        · have hlen : i < s.workers.length := by rw [hf.threads]; exact hi
          have hget : s.workers.get? i = some (s.workers.get ⟨i, hlen⟩) :=
            List.get?_eq_get hlen
          rcases hnorun i _ hget with hpc | hpc | hpc
          · have hstep := worker_exits hget (Or.inl hpc) (by rw [hs1]; decide)
            refine ⟨.work i, _, rfl, hstep, rfl, ?_⟩
            have hw := weight_set .exited hget
            rw [hpc] at hw
            simp only [stepsLeft]
            simp only [WorkerPc.weight] at hw
            omega
          · have hstep := worker_exits hget (Or.inr hpc) (by rw [hs1]; decide)
            refine ⟨.work i, _, rfl, hstep, rfl, ?_⟩
            have hw := weight_set .exited hget
            rw [hpc] at hw
            simp only [stepsLeft]
            simp only [WorkerPc.weight] at hw
            omega
          · rw [hpc] at hget
            have hget' : s.workers[i]? = some .exited := by simpa using hget
            refine ⟨.destroy, { s with destroyer := .joining (i + 1) }, rfl, ?_, rfl, ?_⟩
            · simp [VirusScanner.step, VirusScanner.stepDestroy, hdest, hi, hget']
            · simp only [stepsLeft, hdest, DestroyPc.rank]
              omega
        · refine ⟨.destroy, { s with destroyer := .destroyed }, rfl, ?_, rfl, ?_⟩
          · simp [VirusScanner.step, VirusScanner.stepDestroy, hdest, hi]
          · simp only [stepsLeft, hdest, DestroyPc.rank]
            omega
    · have hs0 : s.mem.tp.shutdown = 0 := by
        rcases hf.shutdown01 with h | h
        · exact h
        · exact absurd (hf.shut h).2 hq0
      have hlen : 0 < s.workers.length := by rw [hf.threads]; exact hn
      have hget : s.workers.get? 0 = some (s.workers.get ⟨0, hlen⟩) :=
        List.get?_eq_get hlen
      have hpc : s.workers.get ⟨0, hlen⟩ = .top ∨ s.workers.get ⟨0, hlen⟩ = .waiting := by
        rcases hnorun 0 _ hget with h | h | h
        · exact Or.inl h
        · exact Or.inr h
        · exfalso
          have hmem : WorkerPc.exited ∈ s.workers := by
            rw [← h]
            exact List.get_mem _ _ _
          have := hf.exited hmem
          rw [hs0] at this
          cases this
      obtain ⟨s', d, h1, h2, h3, h4, h5, h6⟩ := hinv.worker_takes hget hpc hs0 hq0
      refine ⟨.work 0, s', rfl, h1, h5, ?_⟩
      have hw := weight_set (.running d) hget
      have hw1 : (s.workers.get ⟨0, hlen⟩).weight = 1 := by
        rcases hpc with h | h <;> rw [h] <;> rfl
      rw [hw1] at hw
      simp only [stepsLeft, h2, h3, h5, h6]
      simp only [WorkerPc.weight] at hw
      omega

/-- From every state of a pool with at least one thread that satisfies the
invariant, some continuation without calls of `dispatch` makes
`destroy_threadpool` return. -/
theorem Inv.can_return :
    ∀ (k : Nat) (s : System), stepsLeft s ≤ k → Inv s → 1 ≤ s.mem.tp.num_threads →
      ∃ post s', (∀ a ∈ post, a.isDispatch = false) ∧ run s post = .next s' ∧
        s'.destroyer = .destroyed := by
  intro k
  induction k with
  | zero =>
    intro s hk hinv hn
    by_cases hd : s.destroyer = .destroyed
    · exact ⟨[], s, ⟨fun _ ha => absurd ha (List.not_mem_nil _), rfl, hd⟩⟩
    · obtain ⟨a, s', _, _, _, hlt⟩ := hinv.progress hn hd
      omega
  | succ k ih =>
    intro s hk hinv hn
    by_cases hd : s.destroyer = .destroyed
    · exact ⟨[], s, ⟨fun _ ha => absurd ha (List.not_mem_nil _), rfl, hd⟩⟩
    · obtain ⟨a, s', ha, hstep, hnum, hlt⟩ := hinv.progress hn hd
      obtain ⟨post, s'', hpost, hrun, hdone⟩ :=
        ih s' (by omega) (hinv.next hstep) (by rw [hnum]; exact hn)
      refine ⟨a :: post, s'', ?_, ?_, hdone⟩
      · intro b hb
        rcases List.mem_cons.1 hb with rfl | hb
        · exact ha
        · exact hpost b hb
      · rw [run_cons_next hstep]
        exact hrun

theorem Heap.exists_bound (h : Heap) : ∃ a, ∀ p ∈ h, p.1 < a := by
  induction h with
  | nil => exact ⟨0, fun p hp => absurd hp (List.not_mem_nil _)⟩
  | cons q rest ih =>
    obtain ⟨a, ha⟩ := ih
    refine ⟨max a (q.1 + 1), fun p hp => ?_⟩
    rcases List.mem_cons.1 hp with rfl | hp
    · omega
    · have := ha p hp
      omega

/-- Some address is not live: `malloc` can succeed. -/
theorem Heap.exists_fresh (h : Heap) : ∃ a, h.get a = none := by
  obtain ⟨a, ha⟩ := Heap.exists_bound h
  refine ⟨a, ?_⟩
  have key : ∀ (l : Heap), (∀ p ∈ l, p.1 < a) → List.lookup a l = none := by
    intro l
    induction l with
    | nil => intro _; rfl
    | cons q rest ih =>
      intro hl
      obtain ⟨k, w⟩ := q
      have hk : k < a := hl (k, w) (List.mem_cons_self _ _)
      have hak : (a == k) = false := by
        simp only [beq_eq_false_iff_ne, ne_eq]
        omega
      simp only [List.lookup_cons, hak]
      exact ih (fun p hp => hl p (List.mem_cons_of_mem _ hp))
  exact key h ha

theorem run_append_next {pre : List Action} (post : List Action) :
    ∀ {s s1 : System}, run s pre = .next s1 → run s (pre ++ post) = run s1 post := by
  induction pre with
  | nil =>
    intro s s1 h
    simp only [run, Step.next.injEq] at h
    subst h
    rfl
  | cons a rest ih =>
    intro s s1 h
    cases hstep : VirusScanner.step s a with
    | next s2 =>
      rw [run_cons_next hstep] at h
      rw [List.cons_append, run_cons_next hstep]
      exact ih h
    | disabled =>
      rw [run_cons_disabled hstep] at h
      cases h
    | fault =>
      simp [run, hstep] at h

/-- While `destroy_threadpool` has not been called, any list of tasks can be
handed to `dispatch`. -/
theorem Inv.can_dispatch (tasks : List Task) :
    ∀ (s : System), Inv s → s.destroyer = .notCalled →
      ∃ pre s', (∀ a ∈ pre, a ≠ Action.destroy) ∧ dispatchedTasks pre = tasks ∧
        run s pre = .next s' ∧ Inv s' ∧
        s'.mem.tp.num_threads = s.mem.tp.num_threads := by
  induction tasks with
  | nil =>
    intro s hinv _
    exact ⟨[], s, ⟨fun _ ha => absurd ha (List.not_mem_nil _), rfl, rfl, hinv, rfl⟩⟩
  | cons t rest ih =>
    intro s hinv hd
    obtain ⟨a, ha⟩ := Heap.exists_fresh s.mem.heap
    have hnd : ¬ (s.destroyer = .destroyed ∨ s.mem.heap.get a ≠ none) := by
      rw [hd, ha]
      simp
    rcases hinv.stepDispatch a t.1 t.2 with hdis | ⟨s1, h1, hinv1, _, hd1, _, _, hn1⟩
    · exfalso
      simp only [VirusScanner.step, hnd, if_false] at hdis
      split at hdis <;> cases hdis
    · obtain ⟨pre, s2, hpre, htasks, hrun, hinv2, hn2⟩ := ih s1 hinv1 (hd1.trans hd)
      refine ⟨.dispatch a t.1 t.2 :: pre, s2, ?_, ?_, ?_, hinv2, hn2.trans hn1⟩
      · intro b hb
        rcases List.mem_cons.1 hb with rfl | hb
        · intro h; cases h
        · exact hpre b hb
      · simp only [dispatchedTasks, List.filterMap_cons] at htasks ⊢
        rw [htasks]
      · rw [run_cons_next h1]
        exact hrun

/-- For every pool of at least one thread and every list of tasks there is a
schedule in which the tasks are handed to `dispatch`, `destroy_threadpool` is
called after them, and `destroy_threadpool` returns. -/
theorem destroy_threadpool_can_return (n : Nat) (hn : 1 ≤ n) (tasks : List Task) :
    ∃ pre post s, (∀ a ∈ pre, a ≠ Action.destroy) ∧ (∀ a ∈ post, a.isDispatch = false) ∧
      dispatchedTasks pre = tasks ∧
      run (create_threadpool n) (pre ++ post) = .next s ∧ s.destroyer = .destroyed := by
  obtain ⟨pre, s1, hpre, htasks, hrun1, hinv1, hn1⟩ :=
    Inv.can_dispatch tasks (create_threadpool n) (Inv.create n) rfl
  have hn1' : 1 ≤ s1.mem.tp.num_threads := by
    rw [hn1]
    exact hn
  obtain ⟨post, s2, hpost, hrun2, hdone⟩ := Inv.can_return _ s1 (Nat.le_refl _) hinv1 hn1'
  refine ⟨pre, post, s2, hpre, hpost, htasks, ?_, hdone⟩
  rw [run_append_next post hrun1]
  exact hrun2

theorem do_work_wait_num_threads {m m' : Shared} {pc : WorkerPc}
    (h : do_work_wait m = some (m', pc)) : m'.tp.num_threads = m.tp.num_threads := by
  unfold do_work_wait at h
  split at h
  · cases h; rfl
  · split at h
    · cases h; rfl
    · split at h
      · cases h
      · cases h; rfl

/-- No step changes the number of threads of the pool. -/
theorem step_num_threads {s s' : System} {a : Action} (h : step s a = .next s') :
    s'.mem.tp.num_threads = s.mem.tp.num_threads := by
  cases a with
  | dispatch w f x =>
    simp only [step] at h
    split at h
    · cases h
    · split at h
      · cases h
      · rename_i m hm
        cases h
        simp only [dispatch] at hm
        split at hm
        · cases hm; rfl
        · split at hm
          · cases hm
          · cases hm; rfl
  | work i =>
    simp only [step, stepWorker] at h
    split at h
    · cases h
    · cases h
    · rename_i pc _ _
      split at h
      · cases h
      · rename_i m pc' hr
        cases h
        cases pc with
        | top =>
          simp only [do_work_lock] at hr
          split at hr
          · cases hr; rfl
          · exact do_work_wait_num_threads hr
        | waiting => exact do_work_wait_num_threads hr
        | running to_do =>
          simp only [do_work_run] at hr
          split at hr
          · cases hr; rfl
          · cases hr
        | exited => cases hr
  | destroy =>
    simp only [step, stepDestroy] at h
    split at h
    · simp only [destroy_lock, destroy_wait] at h
      split at h <;> (cases h; rfl)
    · simp only [destroy_wait] at h
      split at h <;> (cases h; rfl)
    · split at h
      · split at h
        · cases h; rfl
        · cases h
      · cases h; rfl
    · cases h

theorem run_num_threads {sched : List Action} :
    ∀ {s s' : System}, run s sched = .next s' →
      s'.mem.tp.num_threads = s.mem.tp.num_threads := by
  induction sched with
  | nil =>
    intro s s' h
    simp only [run, Step.next.injEq] at h
    subst h
    rfl
  | cons a rest ih =>
    intro s s' h
    cases hstep : step s a with
    | next s1 =>
      rw [run_cons_next hstep] at h
      exact (ih h).trans (step_num_threads hstep)
    | disabled =>
      rw [run_cons_disabled hstep] at h
      cases h
    | fault =>
      simp [run, hstep] at h

/-- No deadlock: after every schedule from `create_threadpool` with at least one
thread, some continuation without calls of `dispatch` makes `destroy_threadpool`
return. -/
theorem destroy_threadpool_never_stuck (n : Nat) (hn : 1 ≤ n) (sched : List Action)
    (s : System) (hrun : run (create_threadpool n) sched = .next s) :
    ∃ post s', (∀ a ∈ post, a.isDispatch = false) ∧ run s post = .next s' ∧
      s'.destroyer = .destroyed := by
  have hinv : Inv s := (Inv.create n).after_schedule hrun
  have hnum : s.mem.tp.num_threads = n := run_num_threads hrun
  exact Inv.can_return _ s (Nat.le_refl _) hinv (by rw [hnum]; exact hn)

/-- C5: for every pool of `N ≥ 1` threads and every schedule of the threads in
which `M` calls of `dispatch` are made before `destroy_threadpool` is called and
none after, from the state reached `destroy_threadpool` can be brought to return
by steps of the workers and of `destroy_threadpool` alone (it is never stuck in
its wait, nor are the workers in theirs), and whenever `destroy_threadpool` has
returned, the routines called are exactly the `M` tasks submitted, each once. -/
theorem pool_drains_before_terminating (n : Nat) (hn : 1 ≤ n) (pre post : List Action)
    (s : System)
    (hpre : ∀ a ∈ pre, a ≠ Action.destroy)
    (hpost : ∀ a ∈ post, a.isDispatch = false)
    (hrun : run (create_threadpool n) (pre ++ post) = .next s) :
    (∃ more s', (∀ a ∈ more, a.isDispatch = false) ∧ run s more = .next s' ∧
      s'.destroyer = .destroyed ∧
      (calledTasks s'.mem.log).Perm (dispatchedTasks pre) ∧
      (calledTasks s'.mem.log).length = (dispatchedTasks pre).length) ∧
    (s.destroyer = .destroyed →
      (calledTasks s.mem.log).Perm (dispatchedTasks pre) ∧
      (calledTasks s.mem.log).length = (dispatchedTasks pre).length) := by
  have hinv : Inv s := (Inv.create n).after_schedule hrun
  have hnum : s.mem.tp.num_threads = n := run_num_threads hrun
  refine ⟨?_, fun hdone => called_when_returned n pre post s hpre hpost hrun hdone⟩
  obtain ⟨more, s', hmore, hrun', hdone⟩ :=
    Inv.can_return _ s (Nat.le_refl _) hinv (by rw [hnum]; exact hn)
  have hall : run (create_threadpool n) (pre ++ (post ++ more)) = .next s' := by
    rw [← List.append_assoc, run_append_next more hrun]
    exact hrun'
  have hpost' : ∀ a ∈ post ++ more, a.isDispatch = false := by
    intro a ha
    rcases List.mem_append.1 ha with h | h
    · exact hpost a h
    · exact hmore a h
  obtain ⟨h1, h2⟩ := called_when_returned n pre (post ++ more) s' hpre hpost' hall hdone
  exact ⟨more, s', hmore, hrun', hdone, h1, h2⟩

/-- C5, witness: two workers, one of which is waiting on the empty queue when the
three tasks are submitted; `destroy_threadpool` is called with two tasks still
queued and waits; the waiting worker wakes and the queue drains; then
`destroy_threadpool` resumes, the workers exit, and it returns with the three
routines called. -/
theorem pool_drains_before_terminating_witness :
    (stateAfter 2 [.work 0]).workers = [.waiting, .top] ∧
    (stateAfter 2
      ([.work 0, .dispatch 5 1 10, .dispatch 6 2 20, .work 1, .dispatch 7 3 30]
        ++ [.destroy])).destroyer = .draining ∧
    (∃ more s', (∀ a ∈ more, a.isDispatch = false) ∧
      run (stateAfter 2
        ([.work 0, .dispatch 5 1 10, .dispatch 6 2 20, .work 1, .dispatch 7 3 30]
          ++ [.destroy])) more = .next s' ∧
      s'.destroyer = .destroyed ∧
      (calledTasks s'.mem.log).Perm [(1, 10), (2, 20), (3, 30)] ∧
      (calledTasks s'.mem.log).length = 3) ∧
    (stateAfter 2
      ([.work 0, .dispatch 5 1 10, .dispatch 6 2 20, .work 1, .dispatch 7 3 30]
        ++ [.destroy, .work 0, .work 1, .work 0, .destroy, .work 1, .work 1, .destroy,
            .work 0, .work 1, .destroy, .destroy, .destroy])).destroyer = .destroyed ∧
    calledTasks (stateAfter 2
      ([.work 0, .dispatch 5 1 10, .dispatch 6 2 20, .work 1, .dispatch 7 3 30]
        ++ [.destroy, .work 0, .work 1, .work 0, .destroy, .work 1, .work 1, .destroy,
            .work 0, .work 1, .destroy, .destroy, .destroy])).mem.log
      = [(1, 10), (2, 20), (3, 30)] ∧
    (calledTasks (stateAfter 2
      ([.work 0, .dispatch 5 1 10, .dispatch 6 2 20, .work 1, .dispatch 7 3 30]
        ++ [.destroy, .work 0, .work 1, .work 0, .destroy, .work 1, .work 1, .destroy,
            .work 0, .work 1, .destroy, .destroy, .destroy])).mem.log).length = 3 :=
  ⟨by decide, by decide,
   (pool_drains_before_terminating 2 (by decide)
      [.work 0, .dispatch 5 1 10, .dispatch 6 2 20, .work 1, .dispatch 7 3 30]
      [.destroy] _ (by decide) (by decide) (by decide)).1,
   by decide, by decide,
   ((pool_drains_before_terminating 2 (by decide)
      [.work 0, .dispatch 5 1 10, .dispatch 6 2 20, .work 1, .dispatch 7 3 30]
      [.destroy, .work 0, .work 1, .work 0, .destroy, .work 1, .work 1, .destroy,
       .work 0, .work 1, .destroy, .destroy, .destroy]
      _ (by decide) (by decide) (by decide)).2 (by decide)).2⟩

end VirusScanner
